import Mathlib

/-!
Verification of the clustering pipeline of `AgenticBrowser`
(`src/app/api/tools/cluster_tool.ts`, `src/app/api/cluster/route.ts`,
`src/app/db/index.ts`).

The TypeScript source is shallowly embedded: JavaScript numbers become `ℚ`,
arrays become `List`, thrown exceptions become `Except String`, and the two
external OpenAI backends (chat completion and embedding) together with the
PostgreSQL-backed caches are abstracted as function parameters, exactly at the
granularity at which the source consumes them.  All definitions follow the
second (current) version of `cluster_tool.ts`, the one containing
`deduplicateUrlData` and the database-backed description/embedding caches.
-/

namespace AgenticBrowser

/-- Mirrors the `UrlData` interface of `cluster_tool.ts`:
`{url, title, content, description}`. -/
structure UrlData where
  url : String
  title : String
  content : String
  description : String
deriving DecidableEq, Repr, Inhabited

/-- Mirrors the `EmbeddingData` interface: `UrlData` plus `embedding: number[]`. -/
structure EmbeddingData extends UrlData where
  embedding : List ℚ
deriving DecidableEq, Repr, Inhabited

/-- Mirrors the `ClusteredData` interface: `EmbeddingData` plus `cluster: number`. -/
structure ClusteredData extends EmbeddingData where
  cluster : Int
deriving DecidableEq, Repr, Inhabited

/-- Mirrors a row of the `url_history` table as consumed by
`db.urlHistory.batchFindByUrls` (`src/app/db/index.ts`):
`{url, title, descriptive_representation, embedding}`. -/
structure UrlHistoryEntry where
  url : String
  title : String
  descriptive_representation : String
  embedding : List ℚ
deriving DecidableEq, Repr, Inhabited

/-- A snapshot of the `url_history` store, keyed by `url` (the table has a
unique constraint on `url`, witnessed by `ON CONFLICT (url)` in
`batchCreate`).  `db.urlHistory.batchFindByUrls` followed by building
`existingEntriesMap` is exactly a lookup in such a snapshot. -/
abbrev Cache := String → Option UrlHistoryEntry

/-- `db.urlHistory.create` / the `batchCreate` upsert, modeled as an
always-succeeding store update (storage failures are outside the model;
the source catches and logs them without changing the returned data). -/
def cacheInsert (cache : Cache) (e : UrlHistoryEntry) : Cache :=
  fun k => if k = e.url then some e else cache k

/-! ### Deduplicator (`deduplicateUrlData`, cluster_tool.ts lines 730-740) -/

/-- The `seen`-set filter of `deduplicateUrlData`, with the mutable
`Set<string>` threaded explicitly. -/
def dedupAux (seen : List String) : List UrlData → List UrlData
  | [] => []
  | u :: rest =>
    if u.url ∈ seen then dedupAux seen rest
    else u :: dedupAux (u.url :: seen) rest

/-- Mirrors `deduplicateUrlData`: keep the first occurrence of each `url`. -/
def deduplicateUrlData (urlDataArray : List UrlData) : List UrlData :=
  dedupAux [] urlDataArray

/-! ### Description stage (`generateDescriptiveRepresentations`, lines 490-592)

The OpenAI chat call is abstracted as `gen : UrlData → Option String`:
`some d` means the call returned (with `d` the extracted
`response.choices[0]?.message?.content || ""`), `none` means it threw. -/

/-- One deferred description generation (the body of the second loop of
`generateDescriptiveRepresentations`): on success the item is emitted with the
generated description, on a thrown error the original item is kept. -/
def describeOne (gen : UrlData → Option String) (u : UrlData) : UrlData :=
  match gen u with
  | some d => { u with description := d }
  | none => u

/-- The source's first loop: a cache hit with a non-empty
`descriptive_representation` (JS truthiness) is emitted immediately with the
cached description; otherwise an item with neither `content` nor `title`
(JS truthiness: both empty) is emitted unchanged; everything else is deferred
to `urlsToProcess`.  Returns `(enhancedUrlData-so-far, urlsToProcess)`,
each in input order. -/
def descFirstPass (cache : Cache) : List UrlData → List UrlData × List UrlData
  | [] => ([], [])
  | u :: rest =>
    let p := descFirstPass cache rest
    match cache u.url with
    | some e =>
      if e.descriptive_representation ≠ "" then
        ({ u with description := e.descriptive_representation } :: p.1, p.2)
      else if u.content = "" ∧ u.title = "" then (u :: p.1, p.2)
      else (p.1, u :: p.2)
    | none =>
      if u.content = "" ∧ u.title = "" then (u :: p.1, p.2)
      else (p.1, u :: p.2)

/-- The source's second loop over `urlsToProcess` (cluster_tool.ts 540-588).
Per item, inside one `try`: generate a description (a throw here lands in the
`catch`, which pushes the original item); on success push the described item,
THEN `await db.urlHistory.create({url, title, descriptive_representation,
embedding: []})`.  `createOk e cache` abstracts whether that awaited insert
succeeds (`false` = it throws: a unique-key violation on an already-present
url, or any storage failure).  Because the described item was pushed before
the await, a create throw makes the `catch` push the original item AS WELL,
so that item is emitted twice and the store is left unchanged.  Returns the
emitted items and the updated store. -/
def descProcessAll (gen : UrlData → Option String)
    (createOk : UrlHistoryEntry → Cache → Bool) :
    Cache → List UrlData → List UrlData × Cache
  | cache, [] => ([], cache)
  | cache, u :: rest =>
    match gen u with
    | some d =>
      if createOk ⟨u.url, u.title, d, []⟩ cache then
        let p := descProcessAll gen createOk (cacheInsert cache ⟨u.url, u.title, d, []⟩) rest
        ({ u with description := d } :: p.1, p.2)
      else
        let p := descProcessAll gen createOk cache rest
        ({ u with description := d } :: u :: p.1, p.2)
    | none =>
      let p := descProcessAll gen createOk cache rest
      (u :: p.1, p.2)

/-- Mirrors `generateDescriptiveRepresentations`: first loop partitions into
immediately-emitted items and `urlsToProcess`; second loop appends the
processed items.  Also returns the updated `url_history` store (the source
writes it via `db.urlHistory.create`, abstracted by `createOk`), which the
embedding stage reads. -/
def generateDescriptiveRepresentations (cache : Cache) (gen : UrlData → Option String)
    (createOk : UrlHistoryEntry → Cache → Bool)
    (urlDataArray : List UrlData) : List UrlData × Cache :=
  let fp := descFirstPass cache urlDataArray
  let pr := descProcessAll gen createOk cache fp.2
  (fp.1 ++ pr.1, pr.2)

/-- The per-item result of the description stage, by case: cache hit → cached
description; nothing to analyze → unchanged; otherwise → `describeOne`. -/
def descTransform (cache : Cache) (gen : UrlData → Option String) (u : UrlData) : UrlData :=
  match cache u.url with
  | some e =>
    if e.descriptive_representation ≠ "" then { u with description := e.descriptive_representation }
    else if u.content = "" ∧ u.title = "" then u
    else describeOne gen u
  | none =>
    if u.content = "" ∧ u.title = "" then u
    else describeOne gen u

/-- Whether an item is emitted by the first loop of
`generateDescriptiveRepresentations` (cache hit, or nothing to analyze). -/
def descEmittedFirst (cache : Cache) (u : UrlData) : Bool :=
  match cache u.url with
  | some e =>
    if e.descriptive_representation ≠ "" then true
    else decide (u.content = "" ∧ u.title = "")
  | none => decide (u.content = "" ∧ u.title = "")

/-! ### Embedding stage (`createEmbeddings`, lines 600-697)

The OpenAI embeddings call is abstracted as
`embedF : String → Option (List ℚ)`: `some v` is a successful call whose
response carried the vector `v`, `none` covers both a thrown call and a
response with no embedding (the source turns the latter into a throw). -/

/-- The source's first loop over `createEmbeddings`' input: items with an
empty `description` are dropped; a cache hit with a non-empty `embedding`
array is emitted immediately; everything else is deferred. -/
def embFirstPass (cache : Cache) : List UrlData → List EmbeddingData × List UrlData
  | [] => ([], [])
  | u :: rest =>
    let p := embFirstPass cache rest
    if u.description = "" then p
    else
      match cache u.url with
      | some e =>
        if 0 < e.embedding.length then ({ toUrlData := u, embedding := e.embedding } :: p.1, p.2)
        else (p.1, u :: p.2)
      | none => (p.1, u :: p.2)

/-- Mirrors `createEmbeddings`: cached embeddings first, then the successful
fresh embeddings; per-item failures are dropped.  The final `batchCreate`
upsert only touches the external store, never the returned array, and nothing
after this stage reads that store, so the updated store is not returned. -/
def createEmbeddings (cache : Cache) (embedF : String → Option (List ℚ))
    (urlDataArray : List UrlData) : List EmbeddingData :=
  let fp := embFirstPass cache urlDataArray
  fp.1 ++ fp.2.filterMap
    (fun u => (embedF u.description).map
      (fun v => ({ toUrlData := u, embedding := v } : EmbeddingData)))

/-! ### DBSCAN clusterer (`euclideanDistance`, `createClusters`, lines 705-830)

JavaScript numbers are embedded as `ℚ`.  The source only ever uses a distance
in the comparison `Math.sqrt(sum) <= epsilon`; since `Real.sqrt` is monotone
and both sides are non-negative when `0 ≤ epsilon`, that comparison is
`0 ≤ epsilon ∧ sum ≤ epsilon²`, which is how `findNeighborsAux` states it
below (for `epsilon < 0` the comparison is false in both renderings).
The `throw new Error` on mismatched vector lengths is `Except.error`. -/

/-- Mirrors `euclideanDistance` up to the square root: the squared Euclidean
distance, or the thrown error when the two vectors differ in length. -/
def euclideanDistanceSq (vec1 vec2 : List ℚ) : Except String ℚ :=
  if vec1.length = vec2.length then
    .ok ((List.zip vec1 vec2).foldl (fun s p => s + (p.1 - p.2) ^ 2) 0)
  else .error "Vectors must have the same length"

/-- The loop body of `findNeighbors`, over an explicit list of candidate
indices (the source iterates `i` over `0..n-1`): skip the query point itself,
propagate the first distance error, keep indices within `epsilon`. -/
def findNeighborsAux (emb : List (List ℚ)) (epsilon : ℚ) (p : Nat) :
    List Nat → Except String (List Nat)
  | [] => .ok []
  | i :: rest =>
    if i = p then findNeighborsAux emb epsilon p rest
    else
      match euclideanDistanceSq (emb.getD p []) (emb.getD i []) with
      | .error e => .error e
      | .ok d =>
        match findNeighborsAux emb epsilon p rest with
        | .error e => .error e
        | .ok ns => .ok (if 0 ≤ epsilon ∧ d ≤ epsilon ^ 2 then i :: ns else ns)

/-- Mirrors the inner `findNeighbors` of `createClusters`. -/
def findNeighbors (emb : List (List ℚ)) (epsilon : ℚ) (p : Nat) : Except String (List Nat) :=
  findNeighborsAux emb epsilon p (List.range emb.length)

/-- The mutable state of `createClusters`: the `visited` array, the `cluster`
fields of `clusteredData`, and the `currentCluster` counter, with the two
arrays represented as total maps from index. -/
structure DBState where
  visited : Nat → Bool
  cluster : Nat → Int
  currentCluster : Nat

/-- `visited[p] = true`. -/
def setVisited (s : DBState) (p : Nat) : DBState :=
  { s with visited := fun j => if j = p then true else s.visited j }

/-- `clusteredData[p].cluster = c`. -/
def setCluster (s : DBState) (p : Nat) (c : Int) : DBState :=
  { s with cluster := fun j => if j = p then c else s.cluster j }

/-- The first half of one iteration of the `expandCluster` loop, for the
worklist entry `nb`: if unvisited, mark visited, compute its neighbors and,
when it is itself core (`minPoints ≤ |neighbors|`), append those of its
neighbors not already in the worklist and distinct from the seed. -/
def expandStep (emb : List (List ℚ)) (epsilon : ℚ) (minPoints : Nat) (seed : Nat)
    (ws : List Nat) (s : DBState) (nb : Nat) : Except String (List Nat × DBState) :=
  if s.visited nb then .ok (ws, s)
  else
    match findNeighbors emb epsilon nb with
    | .error e => .error e
    | .ok nn =>
      .ok (if minPoints ≤ nn.length
           then ws ++ nn.filter (fun m => !ws.contains m && m != seed)
           else ws,
           setVisited s nb)

/-- The `for (let i = 0; i < neighbors.length; i++)` loop of `expandCluster`,
whose worklist grows while it is being traversed.  The loop makes at most one
step per distinct point index, so `fuel := emb.length` (supplied by
`expandCluster` below) is never exhausted; see `expandLoop_fuel_stable`. -/
def expandLoop (emb : List (List ℚ)) (epsilon : ℚ) (minPoints : Nat) (seed : Nat) (c : Int) :
    Nat → Nat → List Nat → DBState → Except String (List Nat × DBState)
  | 0, _, ws, s => .ok (ws, s)
  | fuel + 1, i, ws, s =>
    if i < ws.length then
      let nb := ws.getD i 0
      match expandStep emb epsilon minPoints seed ws s nb with
      | .error e => .error e
      | .ok (ws2, s2) =>
        expandLoop emb epsilon minPoints seed c fuel (i + 1) ws2
          (if s2.cluster nb = -1 then setCluster s2 nb c else s2)
    else .ok (ws, s)

/-- Mirrors `expandCluster`: assign the seed to the cluster, then run the
growing-worklist loop. -/
def expandCluster (emb : List (List ℚ)) (epsilon : ℚ) (minPoints : Nat) (pointIndex : Nat)
    (neighbors : List Nat) (c : Int) (s : DBState) : Except String (List Nat × DBState) :=
  expandLoop emb epsilon minPoints pointIndex c emb.length 0 neighbors
    (setCluster s pointIndex c)

/-- The main DBSCAN loop of `createClusters`, over the list of point indices:
skip visited points; otherwise visit, find neighbors, and either mark noise
(`cluster = -1`) or expand a new cluster and advance `currentCluster`. -/
def mainLoop (emb : List (List ℚ)) (epsilon : ℚ) (minPoints : Nat) :
    List Nat → DBState → Except String DBState
  | [], s => .ok s
  | i :: rest, s =>
    if s.visited i then mainLoop emb epsilon minPoints rest s
    else
      match findNeighbors emb epsilon i with
      | .error e => .error e
      | .ok nbs =>
        if nbs.length < minPoints then
          mainLoop emb epsilon minPoints rest (setCluster (setVisited s i) i (-1))
        else
          match expandCluster emb epsilon minPoints i nbs (s.currentCluster : Int)
              (setVisited s i) with
          | .error e => .error e
          | .ok (_, s2) =>
            mainLoop emb epsilon minPoints rest
              { s2 with currentCluster := s2.currentCluster + 1 }

/-- Mirrors `createClusters` (the orchestration path calls it with
`epsilon = 0.75`, `minPoints = 2`): every point starts as noise `-1`; the
final `cluster` assignments are read back into the data array. -/
def createClusters (embeddingDataArray : List EmbeddingData) (epsilon : ℚ) (minPoints : Nat) :
    Except String (List ClusteredData) :=
  match mainLoop (embeddingDataArray.map (fun d => d.embedding)) epsilon minPoints
      (List.range embeddingDataArray.length) ⟨fun _ => false, fun _ => -1, 0⟩ with
  | .error e => .error e
  | .ok s =>
    .ok (embeddingDataArray.enum.map
      (fun p => { toEmbeddingData := p.2, cluster := s.cluster p.1 }))

/-! ### Summarizer (`analyzeClusters`, lines 838-925)

The chat call for a group is abstracted as `chat : String → Option String`
applied to the `"\n\n"`-join of the member descriptions; the two regex
extractions on the response are abstracted as
`nameMatch, descMatch : String → Option String` (capture group of
`/(?:name|Name|NAME):.../` resp. `/(?:description|...):.../`).  The claims
checked here do not depend on the regex internals.  The JS object
`clusterGroups` is rendered as an association list in key-insertion order;
`Object.entries` enumerates integer-like keys in ascending numeric order with
`"-1"` last, but every group is summarized independently, so the key→summary
mapping — all the claims constrain — is unaffected by enumeration order. -/

/-- A value of the `clusterAnalysis` object: `{name, description, urls, count}`. -/
structure ClusterAnalysisEntry where
  name : String
  description : String
  urls : List String
  count : Nat
deriving DecidableEq, Repr, Inhabited

/-- Adding one item to the `clusterGroups` object: append to its cluster's
bucket, creating the bucket on first sight of the key. -/
def addToGroups (groups : List (Int × List ClusteredData)) (d : ClusteredData) :
    List (Int × List ClusteredData) :=
  if groups.any (fun kv => kv.1 == d.cluster) then
    groups.map (fun kv => if kv.1 == d.cluster then (kv.1, kv.2 ++ [d]) else kv)
  else groups ++ [(d.cluster, [d])]

/-- The grouping loop of `analyzeClusters`. -/
def groupByCluster (clusteredData : List ClusteredData) : List (Int × List ClusteredData) :=
  clusteredData.foldl addToGroups []

/-- The `"\n\n"` join of the member descriptions sent to the backend. -/
def joinDescriptions (l : List String) : String :=
  String.intercalate "\n\n" l

/-- The body of the per-group loop of `analyzeClusters`: the `-1` group gets
the fixed noise summary with no backend call; any other group is summarized
from the backend response, with the id-based fallbacks on parse failure and
the fixed error summary when the call throws. -/
def summarizeGroup (chat : String → Option String) (nameMatch descMatch : String → Option String)
    (clusterId : Int) (clusterData : List ClusteredData) : ClusterAnalysisEntry :=
  if clusterId = -1 then
    { name := "Noise", description := "Points that do not belong to any cluster",
      urls := clusterData.map (fun d => d.url), count := clusterData.length }
  else
    match chat (joinDescriptions (clusterData.map (fun d => d.description))) with
    | none =>
      { name := "Cluster " ++ toString clusterId,
        description := "Error analyzing this cluster",
        urls := clusterData.map (fun d => d.url), count := clusterData.length }
    | some analysisText =>
      { name := (nameMatch analysisText).getD ("Cluster " ++ toString clusterId),
        description := (descMatch analysisText).getD analysisText,
        urls := clusterData.map (fun d => d.url), count := clusterData.length }

/-- Mirrors `analyzeClusters`, as the association list `clusterId ↦ summary`. -/
def analyzeClusters (chat : String → Option String) (nameMatch descMatch : String → Option String)
    (clusteredData : List ClusteredData) : List (Int × ClusterAnalysisEntry) :=
  (groupByCluster clusteredData).map
    (fun kv => (kv.1, summarizeGroup chat nameMatch descMatch kv.1 kv.2))

/-! ### Pipeline orchestrator (`clusterUrls`, lines 935-988)

Modeled on the `preProcessedUrls` path, the one exercised by the cluster
route (`route.ts` always passes `urlsToCluster`); the `crawlWebsite` branch
is external content acquisition.  `baseUrl` and `maxUrls` only matter to that
branch and to the returned `baseUrl` field. -/

/-- An element of `preProcessedUrls`: `{url, title}` (title already defaulted
to `""` by the callers). -/
structure PreUrl where
  url : String
  title : String
deriving DecidableEq, Repr, Inhabited

/-- The object returned by `clusterUrls`. -/
structure ClusterRunResult where
  baseUrl : String
  totalUrls : Nat
  totalClusters : Nat
  clusterAnalysis : List (Int × ClusterAnalysisEntry)
deriving DecidableEq, Repr, Inhabited

/-- Mirrors `clusterUrls` on the `preProcessedUrls` path: build `UrlData`
records with empty `content`/`description`, deduplicate, describe (threading
the `url_history` store into the embedding stage), embed, cluster with
`epsilon = 0.75, minPoints = 2`, analyze.  `totalClusters` counts the
non-`"-1"` keys of `clusterAnalysis`.  A `createClusters` error propagates
through the source's catch-and-rethrow. -/
def clusterUrls (cache : Cache) (gen : UrlData → Option String)
    (createOk : UrlHistoryEntry → Cache → Bool)
    (embedF : String → Option (List ℚ)) (chat : String → Option String)
    (nameMatch descMatch : String → Option String)
    (baseUrl : String) (preProcessedUrls : List PreUrl) : Except String ClusterRunResult :=
  let urlDataArray : List UrlData :=
    preProcessedUrls.map (fun it => ⟨it.url, it.title, "", ""⟩)
  let deduplicatedUrlData := deduplicateUrlData urlDataArray
  let gd := generateDescriptiveRepresentations cache gen createOk deduplicatedUrlData
  let embeddingDataArray := createEmbeddings gd.2 embedF gd.1
  match createClusters embeddingDataArray (3 / 4) 2 with
  | .error e => .error e
  | .ok clusteredData =>
    let clusterAnalysis := analyzeClusters chat nameMatch descMatch clusteredData
    .ok { baseUrl := baseUrl, totalUrls := urlDataArray.length,
          totalClusters := (clusterAnalysis.filter (fun kv => kv.1 != -1)).length,
          clusterAnalysis := clusterAnalysis }

/-! ### Cluster route (`route.ts` lines 27-43 and 87-100) and input hashing
(`db/index.ts` lines 11-14) -/

/-- The `Cluster` shape the route returns and persists: `{name, description,
urls, count, status}` with `status` set to the cluster's name. -/
structure RouteCluster where
  name : String
  description : String
  urls : List String
  count : Nat
  status : String
deriving DecidableEq, Repr, Inhabited

/-- Mirrors route.ts lines 87-94: drop the `"-1"` key of `clusterAnalysis`,
keep each remaining summary with `status := name`.  This same list is then
both returned to the client and stored via `db.clusters.create` (lines
96-100), so it is also exactly the value persisted in the result cache. -/
def routeClusters (clusterAnalysis : List (Int × ClusterAnalysisEntry)) : List RouteCluster :=
  (clusterAnalysis.filter (fun kv => kv.1 != -1)).map
    (fun kv => { name := kv.2.name, description := kv.2.description,
                 urls := kv.2.urls, count := kv.2.count, status := kv.2.name })

/-- The request body fields the route destructures and hashes:
`{fetchHistory, maxItems, urls, baseUrl}`, with the `urls` array holding
`{url, title}` objects. -/
structure ClusterRequest where
  fetchHistory : Bool
  maxItems : Nat
  urls : List PreUrl
  baseUrl : String
deriving DecidableEq, Repr, Inhabited

/-- JSON string literal (the requests considered contain no characters that
`JSON.stringify` escapes). -/
def jsonQuote (s : String) : String := "\"" ++ s ++ "\""

/-- JSON boolean literal. -/
def boolLit (b : Bool) : String := if b then "true" else "false"

/-- Mirrors `JSON.stringify(input, Object.keys(input).sort())` for a
`ClusterRequest`.  The replacer is the sorted top-level key list
`["baseUrl","fetchHistory","maxItems","urls"]`; per ECMA-404/ECMA-262, an
array replacer serializes every (non-array) object — at every nesting depth —
through that same key list, while array elements themselves are never
filtered.  The keys `url` and `title` of the objects inside `urls` are not in
the list, so each such object serializes as `{}`. -/
def normalizedInput (r : ClusterRequest) : String :=
  "\x7b\"baseUrl\":" ++ jsonQuote r.baseUrl ++
  ",\"fetchHistory\":" ++ boolLit r.fetchHistory ++
  ",\"maxItems\":" ++ toString r.maxItems ++
  ",\"urls\":[" ++ String.intercalate "," (r.urls.map (fun _ => "\x7b\x7d")) ++ "]\x7d"

/-- Mirrors `generateInputHash` with the SHA-256 hex digest abstracted as a
function parameter: the hash of the normalized (replacer-serialized) input. -/
def generateInputHash (hashHex : String → String) (r : ClusterRequest) : String :=
  hashHex (normalizedInput r)

/-- Mirrors `db.clusters.findByInputHash`: first row of the `Clusters` table
whose `inputHash` matches. -/
def findByInputHash (store : List (String × List RouteCluster)) (h : String) :
    Option (List RouteCluster) :=
  match store.find? (fun kv => kv.1 == h) with
  | some kv => some kv.2
  | none => none

/-- The cache-check prefix of the route's `POST` (route.ts lines 27-43): hash
the request, look the hash up, and on a hit serve the stored `clusterResult`. -/
def postCacheLookup (hashHex : String → String) (store : List (String × List RouteCluster))
    (r : ClusterRequest) : Option (List RouteCluster) :=
  findByInputHash store (generateInputHash hashHex r)

/-! ## Lemmas about the Deduplicator -/

theorem dedupAux_sublist (seen : List String) (l : List UrlData) :
    (dedupAux seen l).Sublist l := by
  induction l generalizing seen with
  | nil => simp [dedupAux]
  | cons u rest ih =>
    simp only [dedupAux]
    split
    · exact (ih seen).cons u
    · exact (ih (u.url :: seen)).cons₂ u

theorem url_not_seen_of_mem_dedupAux {v : UrlData} {seen : List String} {l : List UrlData}
    (hv : v ∈ dedupAux seen l) : v.url ∉ seen := by
  induction l generalizing seen with
  | nil => simp [dedupAux] at hv
  | cons u rest ih =>
    simp only [dedupAux] at hv
    split at hv
    · exact ih hv
    · rcases List.mem_cons.mp hv with h | h
      · subst h
        assumption
      · have := ih h
        intro hmem
        exact this (List.mem_cons_of_mem _ hmem)

theorem dedupAux_urls_nodup (seen : List String) (l : List UrlData) :
    ((dedupAux seen l).map (fun u => u.url)).Nodup := by
  induction l generalizing seen with
  | nil => simp [dedupAux]
  | cons u rest ih =>
    simp only [dedupAux]
    split
    · exact ih seen
    · refine List.Nodup.cons ?_ (ih (u.url :: seen))
      intro hmem
      rcases List.mem_map.mp hmem with ⟨v, hv, hurl⟩
      exact url_not_seen_of_mem_dedupAux hv (hurl ▸ List.mem_cons_self _ _)

theorem dedupAux_covers {u : UrlData} {l : List UrlData} (seen : List String)
    (hu : u ∈ l) (hs : u.url ∉ seen) : ∃ v ∈ dedupAux seen l, v.url = u.url := by
  induction l generalizing seen with
  | nil => cases hu
  | cons w rest ih =>
    simp only [dedupAux]
    rcases List.mem_cons.mp hu with h | h
    · subst h
      rw [if_neg hs]
      exact ⟨u, List.mem_cons_self _ _, rfl⟩
    · split
      · exact ih seen h hs
      · by_cases he : u.url = w.url
        · exact ⟨w, List.mem_cons_self _ _, he.symm⟩
        · rcases ih (w.url :: seen) h (by
            intro hmem
            rcases List.mem_cons.mp hmem with h1 | h1
            · exact he h1
            · exact hs h1) with ⟨v, hv, hurl⟩
          exact ⟨v, List.mem_cons_of_mem _ hv, hurl⟩

theorem dedupAux_first_occurrence {v : UrlData} {seen : List String} {l : List UrlData}
    (hv : v ∈ dedupAux seen l) : l.find? (fun w => w.url == v.url) = some v := by
  induction l generalizing seen with
  | nil => simp [dedupAux] at hv
  | cons u rest ih =>
    simp only [dedupAux] at hv
    split at hv
    · have hne : (u.url == v.url) = false := by
        rw [beq_eq_false_iff_ne]
        intro he
        exact url_not_seen_of_mem_dedupAux hv (he ▸ (by assumption))
      rw [List.find?_cons_of_neg _ (by simpa using hne)]
      exact ih hv
    · rcases List.mem_cons.mp hv with h | h
      · subst h
        rw [List.find?_cons_of_pos _ (by simp)]
      · have hne : (u.url == v.url) = false := by
          rw [beq_eq_false_iff_ne]
          intro he
          exact url_not_seen_of_mem_dedupAux h (he ▸ List.mem_cons_self _ _)
        rw [List.find?_cons_of_neg _ (by simpa using hne)]
        exact ih h

/-- C6: for every input, `deduplicateUrlData` returns a list in which no two
items share a `url` (the mapped url list is `Nodup`), that is a sublist of the
input (so first-occurrence order is preserved), that contains an entry for
every url of the input, and in which every entry is exactly the first
occurrence of its url in the input. -/
theorem C6_deduplicateUrlData_spec (input : List UrlData) :
    ((deduplicateUrlData input).map (fun u => u.url)).Nodup ∧
    (deduplicateUrlData input).Sublist input ∧
    (∀ u ∈ input, ∃ v ∈ deduplicateUrlData input, v.url = u.url) ∧
    (∀ v ∈ deduplicateUrlData input, input.find? (fun w => w.url == v.url) = some v) := by
  refine ⟨dedupAux_urls_nodup [] input, dedupAux_sublist [] input, ?_, ?_⟩
  · intro u hu
    exact dedupAux_covers [] hu (by simp)
  · intro v hv
    exact dedupAux_first_occurrence hv

/-- A duplicate-url input for exercising the Deduplicator. -/
def c6input : List UrlData :=
  [⟨"https://a.example", "first title", "", ""⟩,
   ⟨"https://b.example", "other", "", ""⟩,
   ⟨"https://a.example", "second title", "", ""⟩]

/-- C6 witness: on a concrete input with a duplicated url the theorem yields a
representative for the duplicated url, and its conclusion pins that
representative to the first occurrence. -/
theorem C6_witness :
    (∃ v ∈ deduplicateUrlData c6input, v.url = "https://a.example") ∧
    c6input.find? (fun w => w.url == "https://a.example") =
      some ⟨"https://a.example", "first title", "", ""⟩ := by
  constructor
  · exact (C6_deduplicateUrlData_spec c6input).2.2.1
      ⟨"https://a.example", "second title", "", ""⟩ (by simp [c6input])
  · have h := (C6_deduplicateUrlData_spec c6input).2.2.2
      ⟨"https://a.example", "first title", "", ""⟩ (by simp [c6input, deduplicateUrlData, dedupAux])
    simpa using h

/-! ## C10: the input-hash replacer bug -/

/-- First request: one url object. -/
def c10req1 : ClusterRequest :=
  ⟨false, 50, [⟨"https://a.example", "A"⟩], ""⟩

/-- Second request: a different url object, everything else identical. -/
def c10req2 : ClusterRequest :=
  ⟨false, 50, [⟨"https://b.example", "B"⟩], ""⟩

/-- C10: the two distinct requests differ only in the contents of the objects
inside `urls`; the array-replacer serialization erases those contents, so the
normalized strings — hence the hashes, for every digest function — coincide,
and after the first request's result is stored, the cache lookup for the
second request is served the first request's stored cluster result. -/
theorem C10_generateInputHash_collision :
    c10req1 ≠ c10req2 ∧
    normalizedInput c10req1 = normalizedInput c10req2 ∧
    (∀ hashHex : String → String,
      generateInputHash hashHex c10req1 = generateInputHash hashHex c10req2) ∧
    (∀ (hashHex : String → String) (store : List (String × List RouteCluster))
        (res1 : List RouteCluster),
      postCacheLookup hashHex ((generateInputHash hashHex c10req1, res1) :: store) c10req2 =
        some res1) := by
  have hnorm : normalizedInput c10req1 = normalizedInput c10req2 := by decide
  refine ⟨by decide, hnorm, fun hashHex => congrArg hashHex hnorm, ?_⟩
  intro hashHex store res1
  have hh : generateInputHash hashHex c10req1 = generateInputHash hashHex c10req2 :=
    congrArg hashHex hnorm
  simp [postCacheLookup, findByInputHash, List.find?, hh]

/-! ## Lemmas about the Description stage -/

theorem descTransform_of_not_emitted {cache : Cache} {u : UrlData}
    (gen : UrlData → Option String) (h : descEmittedFirst cache u = false) :
    descTransform cache gen u = describeOne gen u := by
  unfold descEmittedFirst at h
  unfold descTransform
  cases hc : cache u.url with
  | none =>
    rw [hc] at h
    simp only [] at h ⊢
    simp only [decide_eq_false_iff_not] at h
    rw [if_neg h]
  | some e =>
    rw [hc] at h
    simp only [] at h ⊢
    by_cases hd : e.descriptive_representation ≠ ""
    · rw [if_pos hd] at h
      cases h
    · rw [if_neg hd] at h
      simp only [decide_eq_false_iff_not] at h
      rw [if_neg hd, if_neg h]

theorem descFirstPass_fst (cache : Cache) (gen : UrlData → Option String) (l : List UrlData) :
    (descFirstPass cache l).1 =
      (l.filter (fun u => descEmittedFirst cache u)).map (descTransform cache gen) := by
  induction l with
  | nil => simp [descFirstPass]
  | cons u rest ih =>
    simp only [descFirstPass]
    cases hc : cache u.url with
    | none =>
      simp only []
      by_cases hskip : u.content = "" ∧ u.title = ""
      · have hemit : descEmittedFirst cache u = true := by simp [descEmittedFirst, hc, hskip]
        rw [if_pos hskip, List.filter_cons_of_pos hemit]
        simp [descTransform, hc, hskip, ih]
      · have hemit : ¬ descEmittedFirst cache u = true := by simp [descEmittedFirst, hc, hskip]
        rw [if_neg hskip, List.filter_cons_of_neg hemit]
        exact ih
    | some e =>
      simp only []
      by_cases hd : e.descriptive_representation ≠ ""
      · have hemit : descEmittedFirst cache u = true := by simp [descEmittedFirst, hc, hd]
        rw [if_pos hd, List.filter_cons_of_pos hemit]
        simp [descTransform, hc, hd, ih]
      · by_cases hskip : u.content = "" ∧ u.title = ""
        · have hemit : descEmittedFirst cache u = true := by
            simp only [descEmittedFirst, hc, if_neg hd, hskip]
            simp
          rw [if_neg hd, if_pos hskip, List.filter_cons_of_pos hemit]
          simp [descTransform, hc, hd, hskip, ih]
        · have hemit : ¬ descEmittedFirst cache u = true := by
            simp only [descEmittedFirst, hc, if_neg hd]
            simpa using hskip
          rw [if_neg hd, if_neg hskip, List.filter_cons_of_neg hemit]
          exact ih

theorem descFirstPass_snd (cache : Cache) (l : List UrlData) :
    (descFirstPass cache l).2 = l.filter (fun u => !descEmittedFirst cache u) := by
  induction l with
  | nil => simp [descFirstPass]
  | cons u rest ih =>
    simp only [descFirstPass]
    cases hc : cache u.url with
    | none =>
      simp only []
      by_cases hskip : u.content = "" ∧ u.title = ""
      · have hemit : descEmittedFirst cache u = true := by simp [descEmittedFirst, hc, hskip]
        rw [if_pos hskip, List.filter_cons_of_neg (by simp [hemit])]
        exact ih
      · have hemit : ¬ descEmittedFirst cache u = true := by simp [descEmittedFirst, hc, hskip]
        rw [if_neg hskip, List.filter_cons_of_pos (by simpa using hemit)]
        rw [ih]
    | some e =>
      simp only []
      by_cases hd : e.descriptive_representation ≠ ""
      · have hemit : descEmittedFirst cache u = true := by simp [descEmittedFirst, hc, hd]
        rw [if_pos hd, List.filter_cons_of_neg (by simp [hemit])]
        exact ih
      · by_cases hskip : u.content = "" ∧ u.title = ""
        · have hemit : descEmittedFirst cache u = true := by
            simp only [descEmittedFirst, hc, if_neg hd, hskip]
            simp
          rw [if_neg hd, if_pos hskip, List.filter_cons_of_neg (by simp [hemit])]
          exact ih
        · have hemit : ¬ descEmittedFirst cache u = true := by
            simp only [descEmittedFirst, hc, if_neg hd]
            simpa using hskip
          rw [if_neg hd, if_neg hskip, List.filter_cons_of_pos (by simpa using hemit)]
          rw [ih]

theorem descProcessAll_of_createOk (gen : UrlData → Option String)
    (createOk : UrlHistoryEntry → Cache → Bool) (hok : ∀ e c, createOk e c = true) :
    ∀ (cache : Cache) (l : List UrlData),
      (descProcessAll gen createOk cache l).1 = l.map (describeOne gen) := by
  intro cache l
  induction l generalizing cache with
  | nil => simp [descProcessAll]
  | cons u rest ih =>
    simp only [descProcessAll, List.map_cons]
    cases hg : gen u with
    | some d =>
      simp only []
      rw [if_pos (hok _ _)]
      simp [describeOne, hg, ih]
    | none =>
      simp only []
      simp [describeOne, hg, ih]

theorem descProcessAll_length_ge (gen : UrlData → Option String)
    (createOk : UrlHistoryEntry → Cache → Bool) :
    ∀ (cache : Cache) (l : List UrlData),
      l.length ≤ (descProcessAll gen createOk cache l).1.length := by
  intro cache l
  induction l generalizing cache with
  | nil => simp [descProcessAll]
  | cons u rest ih =>
    simp only [descProcessAll, List.length_cons]
    cases hg : gen u with
    | some d =>
      simp only []
      by_cases hcr : createOk ⟨u.url, u.title, d, []⟩ cache = true
      · rw [if_pos hcr]
        have := ih (cacheInsert cache ⟨u.url, u.title, d, []⟩)
        simp only [List.length_cons]
        omega
      · rw [if_neg hcr]
        have := ih cache
        simp only [List.length_cons]
        omega
    | none =>
      simp only []
      have := ih cache
      simp only [List.length_cons]
      omega

/-- The per-item shape of the second description loop: each deferred item
contributes exactly one chunk, in order — `[u]` when generation throws,
`[described u]` when generation and the store insert both succeed, and
`[described u, u]` (a double emission) when the insert throws after the
described item was already pushed. -/
def descChunkOf (gen : UrlData → Option String) (u : UrlData) (ch : List UrlData) : Prop :=
  (gen u = none ∧ ch = [u]) ∨
  ∃ d, gen u = some d ∧
    (ch = [{ u with description := d }] ∨ ch = [{ u with description := d }, u])

theorem descProcessAll_chunks (gen : UrlData → Option String)
    (createOk : UrlHistoryEntry → Cache → Bool) :
    ∀ (cache : Cache) (l : List UrlData), ∃ chunks : List (List UrlData),
      (descProcessAll gen createOk cache l).1 = chunks.flatten ∧
      List.Forall₂ (descChunkOf gen) l chunks := by
  intro cache l
  induction l generalizing cache with
  | nil => exact ⟨[], rfl, List.Forall₂.nil⟩
  | cons u rest ih =>
    simp only [descProcessAll]
    cases hg : gen u with
    | some d =>
      simp only []
      by_cases hcr : createOk ⟨u.url, u.title, d, []⟩ cache = true
      · rw [if_pos hcr]
        rcases ih (cacheInsert cache ⟨u.url, u.title, d, []⟩) with ⟨chunks, hj, hf⟩
        refine ⟨[{ u with description := d }] :: chunks, ?_, ?_⟩
        · simp [List.flatten, hj]
        · exact List.Forall₂.cons (Or.inr ⟨d, hg, Or.inl rfl⟩) hf
      · rw [if_neg hcr]
        rcases ih cache with ⟨chunks, hj, hf⟩
        refine ⟨[{ u with description := d }, u] :: chunks, ?_, ?_⟩
        · simp [List.flatten, hj]
        · exact List.Forall₂.cons (Or.inr ⟨d, hg, Or.inr rfl⟩) hf
    | none =>
      simp only []
      rcases ih cache with ⟨chunks, hj, hf⟩
      refine ⟨[u] :: chunks, ?_, ?_⟩
      · simp [List.flatten, hj]
      · exact List.Forall₂.cons (Or.inl ⟨hg, rfl⟩) hf

/-- C4 (amended): the Description stage emits the first-loop items (cache
hits and items with neither content nor title) first in input order, followed
by one chunk per remaining item in input order: the original item when
generation throws, the described item when generation and the store insert
both succeed, and the described item followed by the original (a double
emission) when the insert throws.  Hence the output is never shorter than the
input; whenever every store insert succeeds, the output has exactly the
input's length and is a permutation of the per-item results `descTransform` —
a one-to-one correspondence, though not in input order.  When an insert
throws, even the one-to-one correspondence fails. -/
theorem C4_generateDescriptiveRepresentations_structure (cache : Cache)
    (gen : UrlData → Option String) (createOk : UrlHistoryEntry → Cache → Bool)
    (input : List UrlData) :
    (generateDescriptiveRepresentations cache gen createOk input).1 =
      (input.filter (fun u => descEmittedFirst cache u)).map (descTransform cache gen) ++
      (descProcessAll gen createOk cache
        (input.filter (fun u => !descEmittedFirst cache u))).1 ∧
    (∃ chunks : List (List UrlData),
      (descProcessAll gen createOk cache
        (input.filter (fun u => !descEmittedFirst cache u))).1 = chunks.flatten ∧
      List.Forall₂ (descChunkOf gen)
        (input.filter (fun u => !descEmittedFirst cache u)) chunks) ∧
    input.length ≤ (generateDescriptiveRepresentations cache gen createOk input).1.length ∧
    ((∀ e c2, createOk e c2 = true) →
      ((generateDescriptiveRepresentations cache gen createOk input).1).Perm
        (input.map (descTransform cache gen)) ∧
      (generateDescriptiveRepresentations cache gen createOk input).1.length =
        input.length) := by
  have heq : (generateDescriptiveRepresentations cache gen createOk input).1 =
      (input.filter (fun u => descEmittedFirst cache u)).map (descTransform cache gen) ++
      (descProcessAll gen createOk cache
        (input.filter (fun u => !descEmittedFirst cache u))).1 := by
    unfold generateDescriptiveRepresentations
    simp only []
    rw [descFirstPass_fst cache gen, descFirstPass_snd]
  have hfl : (input.filter (fun u => descEmittedFirst cache u)).length +
      (input.filter (fun u => !descEmittedFirst cache u)).length = input.length :=
    (List.length_append _ _) ▸
      (List.filter_append_perm (fun u => descEmittedFirst cache u) input).length_eq
  refine ⟨heq, descProcessAll_chunks gen createOk cache _, ?_, ?_⟩
  · rw [heq, List.length_append, List.length_map]
    have := descProcessAll_length_ge gen createOk cache
      (input.filter (fun u => !descEmittedFirst cache u))
    omega
  · intro hok
    have heq2 : (generateDescriptiveRepresentations cache gen createOk input).1 =
        (input.filter (fun u => descEmittedFirst cache u)).map (descTransform cache gen) ++
        (input.filter (fun u => !descEmittedFirst cache u)).map (descTransform cache gen) := by
      rw [heq, descProcessAll_of_createOk gen createOk hok]
      congr 1
      apply List.map_congr_left
      intro u hu
      have hne : descEmittedFirst cache u = false := by
        have := (List.mem_filter.mp hu).2
        simpa using this
      exact (descTransform_of_not_emitted gen hne).symm
    have hperm : ((generateDescriptiveRepresentations cache gen createOk input).1).Perm
        (input.map (descTransform cache gen)) := by
      rw [heq2, ← List.map_append]
      exact (List.filter_append_perm _ input).map (descTransform cache gen)
    refine ⟨hperm, ?_⟩
    rw [hperm.length_eq, List.length_map]

/-- The cache for the C4 counterexample: only the second url has a cached
description. -/
def c4cache : Cache := fun k =>
  if k = "https://b.example" then
    some ⟨"https://b.example", "tb", "cached description", []⟩
  else none

/-- Backend for the first half of the C4 counterexample (always throws;
irrelevant to order). -/
def c4gen : UrlData → Option String := fun _ => none

/-- A store whose inserts always succeed. -/
def c4createOk : UrlHistoryEntry → Cache → Bool := fun _ _ => true

/-- Input for the first half of the C4 counterexample: a cache miss with
content followed by a cache hit. -/
def c4input : List UrlData :=
  [⟨"https://a.example", "ta", "content a", ""⟩,
   ⟨"https://b.example", "tb", "content b", ""⟩]

/-- Backend for the second half of the C4 counterexample: generation always
succeeds. -/
def c4genD : UrlData → Option String := fun _ => some "generated"

/-- A store whose inserts always throw (e.g. a unique-key violation on a row
with an empty cached description, or a connection failure). -/
def c4createFail : UrlHistoryEntry → Cache → Bool := fun _ _ => false

/-- Input for the second half of the C4 counterexample. -/
def c4inputB : List UrlData := [⟨"https://c.example", "tc", "content c", ""⟩]

/-- C4 counterexample, refuting both the ordering and the length/one-to-one
parts of the claim: (i) on input urls `[a, b]` with `b` a cache hit and `a` a
cache miss with content, the output urls are `[b, a]` — input order is not
preserved; (ii) when the store insert throws after a successful generation,
the single input item is emitted twice (described, then original), so the
output is longer than the input and there is no one-to-one correspondence. -/
theorem C4_counterexample :
    ((generateDescriptiveRepresentations c4cache c4gen c4createOk c4input).1.map
        (fun u => u.url) = ["https://b.example", "https://a.example"] ∧
      c4input.map (fun u => u.url) = ["https://a.example", "https://b.example"]) ∧
    (generateDescriptiveRepresentations (fun _ => none) c4genD c4createFail c4inputB).1.map
      (fun u => (u.url, u.description)) =
      [("https://c.example", "generated"), ("https://c.example", "")] := by
  refine ⟨⟨by decide, by decide⟩, by decide⟩

/-- C4 witness: the conditional conjunct of the amended theorem applied at a
concrete input with an always-succeeding store, its hypothesis discharged. -/
theorem C4_witness :
    ((generateDescriptiveRepresentations c4cache c4gen c4createOk c4input).1).Perm
      (c4input.map (descTransform c4cache c4gen)) ∧
    (generateDescriptiveRepresentations c4cache c4gen c4createOk c4input).1.length =
      c4input.length :=
  (C4_generateDescriptiveRepresentations_structure c4cache c4gen c4createOk c4input).2.2.2
    (fun _ _ => rfl)

/-! ## Lemmas about the Embedding stage -/

theorem embFirstPass_fst_mem {cache : Cache} {l : List UrlData} {x : EmbeddingData}
    (hx : x ∈ (embFirstPass cache l).1) :
    ∃ u ∈ l, u.description ≠ "" ∧ ∃ e, cache u.url = some e ∧ 0 < e.embedding.length ∧
      x = { toUrlData := u, embedding := e.embedding } := by
  induction l with
  | nil => simp [embFirstPass] at hx
  | cons u rest ih =>
    simp only [embFirstPass] at hx
    by_cases hd : u.description = ""
    · rw [if_pos hd] at hx
      rcases ih hx with ⟨v, hv, h⟩
      exact ⟨v, List.mem_cons_of_mem _ hv, h⟩
    · rw [if_neg hd] at hx
      cases hc : cache u.url with
      | none =>
        rw [hc] at hx
        simp only [] at hx
        rcases ih hx with ⟨v, hv, h⟩
        exact ⟨v, List.mem_cons_of_mem _ hv, h⟩
      | some e =>
        rw [hc] at hx
        simp only [] at hx
        by_cases he : 0 < e.embedding.length
        · rw [if_pos he] at hx
          rcases List.mem_cons.mp hx with h | h
          · exact ⟨u, List.mem_cons_self _ _, hd, e, hc, he, h⟩
          · rcases ih h with ⟨v, hv, hrest⟩
            exact ⟨v, List.mem_cons_of_mem _ hv, hrest⟩
        · rw [if_neg he] at hx
          rcases ih hx with ⟨v, hv, h⟩
          exact ⟨v, List.mem_cons_of_mem _ hv, h⟩

theorem embFirstPass_snd_mem {cache : Cache} {l : List UrlData} {u : UrlData}
    (hu : u ∈ (embFirstPass cache l).2) : u ∈ l ∧ u.description ≠ "" := by
  induction l with
  | nil => simp [embFirstPass] at hu
  | cons w rest ih =>
    simp only [embFirstPass] at hu
    by_cases hd : w.description = ""
    · rw [if_pos hd] at hu
      rcases ih hu with ⟨h1, h2⟩
      exact ⟨List.mem_cons_of_mem _ h1, h2⟩
    · rw [if_neg hd] at hu
      cases hc : cache w.url with
      | none =>
        rw [hc] at hu
        simp only [] at hu
        rcases List.mem_cons.mp hu with h | h
        · subst h
          exact ⟨List.mem_cons_self _ _, hd⟩
        · rcases ih h with ⟨h1, h2⟩
          exact ⟨List.mem_cons_of_mem _ h1, h2⟩
      | some e =>
        rw [hc] at hu
        simp only [] at hu
        by_cases he : 0 < e.embedding.length
        · rw [if_pos he] at hu
          rcases ih hu with ⟨h1, h2⟩
          exact ⟨List.mem_cons_of_mem _ h1, h2⟩
        · rw [if_neg he] at hu
          rcases List.mem_cons.mp hu with h | h
          · subst h
            exact ⟨List.mem_cons_self _ _, hd⟩
          · rcases ih h with ⟨h1, h2⟩
            exact ⟨List.mem_cons_of_mem _ h1, h2⟩

theorem embFirstPass_length (cache : Cache) (l : List UrlData) :
    (embFirstPass cache l).1.length + (embFirstPass cache l).2.length ≤ l.length := by
  induction l with
  | nil => simp [embFirstPass]
  | cons u rest ih =>
    simp only [embFirstPass, List.length_cons]
    by_cases hd : u.description = ""
    · rw [if_pos hd]
      omega
    · rw [if_neg hd]
      cases hc : cache u.url with
      | none =>
        simp only [List.length_cons]
        omega
      | some e =>
        simp only []
        by_cases he : 0 < e.embedding.length
        · rw [if_pos he]
          simp only [List.length_cons]
          omega
        · rw [if_neg he]
          simp only [List.length_cons]
          omega

/-- C5: every item in the output of `createEmbeddings` has a non-empty
description, and its embedding comes either from a cache record with a
non-empty embedding or from a successful backend call — never a placeholder;
items with empty descriptions or failed embeddings are dropped, so the output
is at most as long as the input, and the function is total (no error). -/
theorem C5_createEmbeddings_spec (cache : Cache) (embedF : String → Option (List ℚ))
    (input : List UrlData) :
    (∀ x ∈ createEmbeddings cache embedF input,
       x.description ≠ "" ∧
       ((∃ e, cache x.url = some e ∧ 0 < e.embedding.length ∧ x.embedding = e.embedding) ∨
        embedF x.description = some x.embedding)) ∧
    (createEmbeddings cache embedF input).length ≤ input.length := by
  constructor
  · intro x hx
    unfold createEmbeddings at hx
    rcases List.mem_append.mp hx with h | h
    · rcases embFirstPass_fst_mem h with ⟨u, _, hd, e, hc, he, hxe⟩
      subst hxe
      exact ⟨hd, Or.inl ⟨e, hc, he, rfl⟩⟩
    · rcases List.mem_filterMap.mp h with ⟨u, hu, hmap⟩
      rcases Option.map_eq_some'.mp hmap with ⟨v, hv, hxe⟩
      subst hxe
      exact ⟨(embFirstPass_snd_mem hu).2, Or.inr hv⟩
  · unfold createEmbeddings
    rw [List.length_append]
    have h1 := List.length_filterMap_le
      (fun u => (embedF u.description).map
        (fun v => ({ toUrlData := u, embedding := v } : EmbeddingData)))
      (embFirstPass cache input).2
    have h2 := embFirstPass_length cache input
    omega

/-- Concrete data for the C5 witness. -/
def c5cache : Cache := fun _ => none

/-- Concrete embedding backend for the C5 witness. -/
def c5embed : String → Option (List ℚ) := fun _ => some [1]

/-- Concrete input for the C5 witness. -/
def c5input : List UrlData := [⟨"https://a.example", "t", "c", "a description"⟩]

/-- The single output item of the C5 witness run. -/
def c5out : EmbeddingData :=
  { toUrlData := ⟨"https://a.example", "t", "c", "a description"⟩, embedding := [1] }

/-- C5 witness: the theorem applied to a concrete run in which the only item
is embedded by a successful backend call. -/
theorem C5_witness :
    (c5out.description ≠ "" ∧
      ((∃ e, c5cache c5out.url = some e ∧ 0 < e.embedding.length ∧
          c5out.embedding = e.embedding) ∨
       c5embed c5out.description = some c5out.embedding)) ∧
    (createEmbeddings c5cache c5embed c5input).length ≤ c5input.length :=
  ⟨(C5_createEmbeddings_spec c5cache c5embed c5input).1 c5out (by decide),
   (C5_createEmbeddings_spec c5cache c5embed c5input).2⟩

/-! ## Lemmas about the Summarizer -/

theorem addToGroups_any_iff (groups : List (Int × List ClusteredData)) (c : Int) :
    (groups.any (fun kv => kv.1 == c)) = true ↔ c ∈ groups.map Prod.fst := by
  rw [List.any_eq_true]
  constructor
  · rintro ⟨kv, hkv, hbeq⟩
    exact List.mem_map.mpr ⟨kv, hkv, beq_iff_eq.mp hbeq⟩
  · intro h
    rcases List.mem_map.mp h with ⟨kv, hkv, he⟩
    exact ⟨kv, hkv, beq_iff_eq.mpr he⟩

theorem addToGroups_keys (groups : List (Int × List ClusteredData)) (d : ClusteredData) :
    (addToGroups groups d).map Prod.fst =
      if d.cluster ∈ groups.map Prod.fst then groups.map Prod.fst
      else groups.map Prod.fst ++ [d.cluster] := by
  unfold addToGroups
  by_cases hmem : d.cluster ∈ groups.map Prod.fst
  · rw [if_pos ((addToGroups_any_iff groups d.cluster).mpr hmem), if_pos hmem, List.map_map]
    apply List.map_congr_left
    intro kv _
    simp only [Function.comp_apply]
    split <;> rfl
  · rw [if_neg (fun h => hmem ((addToGroups_any_iff groups d.cluster).mp h)), if_neg hmem,
      List.map_append]
    rfl

theorem addToGroups_key_mem (groups : List (Int × List ClusteredData)) (d : ClusteredData)
    (c : Int) :
    c ∈ (addToGroups groups d).map Prod.fst ↔ c ∈ groups.map Prod.fst ∨ c = d.cluster := by
  rw [addToGroups_keys]
  by_cases hmem : d.cluster ∈ groups.map Prod.fst
  · rw [if_pos hmem]
    constructor
    · exact Or.inl
    · rintro (h | rfl)
      · exact h
      · exact hmem
  · rw [if_neg hmem]
    simp

theorem groupBy_foldl_key_mem (l : List ClusteredData) :
    ∀ (acc : List (Int × List ClusteredData)) (c : Int),
      c ∈ (l.foldl addToGroups acc).map Prod.fst ↔
        c ∈ acc.map Prod.fst ∨ ∃ x ∈ l, x.cluster = c := by
  induction l with
  | nil => simp
  | cons d rest ih =>
    intro acc c
    rw [List.foldl_cons, ih (addToGroups acc d) c, addToGroups_key_mem]
    constructor
    · rintro ((h | rfl) | ⟨x, hx, he⟩)
      · exact Or.inl h
      · exact Or.inr ⟨d, List.mem_cons_self _ _, rfl⟩
      · exact Or.inr ⟨x, List.mem_cons_of_mem _ hx, he⟩
    · rintro (h | ⟨x, hx, he⟩)
      · exact Or.inl (Or.inl h)
      · rcases List.mem_cons.mp hx with rfl | hx2
        · exact Or.inl (Or.inr he.symm)
        · exact Or.inr ⟨x, hx2, he⟩

theorem groupBy_foldl_keys_nodup (l : List ClusteredData) :
    ∀ (acc : List (Int × List ClusteredData)),
      (acc.map Prod.fst).Nodup → ((l.foldl addToGroups acc).map Prod.fst).Nodup := by
  induction l with
  | nil => exact fun acc h => h
  | cons d rest ih =>
    intro acc hacc
    rw [List.foldl_cons]
    apply ih
    rw [addToGroups_keys]
    by_cases hmem : d.cluster ∈ acc.map Prod.fst
    · rw [if_pos hmem]
      exact hacc
    · rw [if_neg hmem]
      simp [List.nodup_append, hacc, hmem]

theorem groupByCluster_key_mem (input : List ClusteredData) (c : Int) :
    c ∈ (groupByCluster input).map Prod.fst ↔ ∃ x ∈ input, x.cluster = c := by
  rw [groupByCluster, groupBy_foldl_key_mem]
  simp

theorem groupByCluster_keys_nodup (input : List ClusteredData) :
    ((groupByCluster input).map Prod.fst).Nodup :=
  groupBy_foldl_keys_nodup input [] (by simp)

theorem mem_keys_iff_exists {β : Type} (groups : List (Int × β)) (c : Int) :
    c ∈ groups.map Prod.fst ↔ ∃ b, (c, b) ∈ groups := by
  constructor
  · intro h
    rcases List.mem_map.mp h with ⟨kv, hkv, he⟩
    exact ⟨kv.2, by rwa [show (c, kv.2) = kv from Prod.ext he.symm rfl]⟩
  · rintro ⟨b, hb⟩
    exact List.mem_map.mpr ⟨(c, b), hb, rfl⟩

theorem analyzeClusters_keys (chat : String → Option String)
    (nameMatch descMatch : String → Option String) (input : List ClusteredData) :
    (analyzeClusters chat nameMatch descMatch input).map Prod.fst =
      (groupByCluster input).map Prod.fst := by
  unfold analyzeClusters
  rw [List.map_map]
  rfl

theorem mem_analyzeClusters {chat nameMatch descMatch : String → Option String}
    {input : List ClusteredData} {id : Int} {e : ClusterAnalysisEntry} :
    (id, e) ∈ analyzeClusters chat nameMatch descMatch input ↔
      ∃ b, (id, b) ∈ groupByCluster input ∧ e = summarizeGroup chat nameMatch descMatch id b := by
  unfold analyzeClusters
  rw [List.mem_map]
  constructor
  · rintro ⟨kv, hkv, heq⟩
    have h1 : kv.1 = id := congrArg Prod.fst heq
    have h2 : summarizeGroup chat nameMatch descMatch kv.1 kv.2 = e := congrArg Prod.snd heq
    subst h1
    exact ⟨kv.2, by rwa [show (kv.1, kv.2) = kv from rfl], h2.symm⟩
  · rintro ⟨b, hb, rfl⟩
    exact ⟨(id, b), hb, rfl⟩

theorem summarizeGroup_count (chat : String → Option String)
    (nameMatch descMatch : String → Option String) (id : Int) (b : List ClusteredData) :
    (summarizeGroup chat nameMatch descMatch id b).count =
      (summarizeGroup chat nameMatch descMatch id b).urls.length := by
  unfold summarizeGroup
  split
  · simp
  · cases chat (joinDescriptions (b.map (fun d => d.description))) <;> simp

theorem lookup_map_keyed {β γ : Type} (groups : List (Int × β)) (f g : Int → β → γ) (k : Int)
    (h : ∀ b, f k b = g k b) :
    (groups.map (fun kv => (kv.1, f kv.1 kv.2))).lookup k =
      (groups.map (fun kv => (kv.1, g kv.1 kv.2))).lookup k := by
  induction groups with
  | nil => rfl
  | cons kv rest ih =>
    simp only [List.map_cons, List.lookup]
    by_cases hk : (k == kv.1) = true
    · have hke : k = kv.1 := beq_iff_eq.mp hk
      subst hke
      rw [hk]
      simp [h kv.2]
    · rw [Bool.not_eq_true] at hk
      rw [hk]
      exact ih

/-- C7: `analyzeClusters` emits exactly one summary per distinct cluster id
present in its input (keys are Nodup and a key exists iff some item carries
that cluster); the `-1` group always receives the fixed name `"Noise"` and
description `"Points that do not belong to any cluster"`; its summary is
independent of the text-generation backend and the response parsers (no
backend call is consulted for it); and in every summary `count` equals the
length of `urls`. -/
theorem C7_analyzeClusters_spec (chat : String → Option String)
    (nameMatch descMatch : String → Option String) (input : List ClusteredData) :
    ((analyzeClusters chat nameMatch descMatch input).map Prod.fst).Nodup ∧
    (∀ id : Int, (∃ x ∈ input, x.cluster = id) ↔
       ∃ e, (id, e) ∈ analyzeClusters chat nameMatch descMatch input) ∧
    (∀ e : ClusterAnalysisEntry, ((-1 : Int), e) ∈ analyzeClusters chat nameMatch descMatch input →
       e.name = "Noise" ∧ e.description = "Points that do not belong to any cluster") ∧
    (∀ (id : Int) (e : ClusterAnalysisEntry),
       (id, e) ∈ analyzeClusters chat nameMatch descMatch input →
       e.count = e.urls.length) ∧
    (∀ (chat2 nameMatch2 descMatch2 : String → Option String),
       (analyzeClusters chat nameMatch descMatch input).lookup (-1) =
       (analyzeClusters chat2 nameMatch2 descMatch2 input).lookup (-1)) := by
  refine ⟨?_, ?_, ?_, ?_, ?_⟩
  · rw [analyzeClusters_keys]
    exact groupByCluster_keys_nodup input
  · intro id
    constructor
    · intro h
      have hk : id ∈ (groupByCluster input).map Prod.fst :=
        (groupByCluster_key_mem input id).mpr h
      rw [← analyzeClusters_keys chat nameMatch descMatch] at hk
      exact (mem_keys_iff_exists _ id).mp hk
    · rintro ⟨e, he⟩
      have hk : id ∈ (analyzeClusters chat nameMatch descMatch input).map Prod.fst :=
        (mem_keys_iff_exists _ id).mpr ⟨e, he⟩
      rw [analyzeClusters_keys] at hk
      exact (groupByCluster_key_mem input id).mp hk
  · intro e he
    rcases mem_analyzeClusters.mp he with ⟨b, _, rfl⟩
    unfold summarizeGroup
    rw [if_pos rfl]
    exact ⟨rfl, rfl⟩
  · intro id e he
    rcases mem_analyzeClusters.mp he with ⟨b, _, rfl⟩
    exact summarizeGroup_count chat nameMatch descMatch id b
  · intro chat2 nameMatch2 descMatch2
    unfold analyzeClusters
    apply lookup_map_keyed
    intro b
    unfold summarizeGroup
    rw [if_pos rfl, if_pos rfl]

/-- Concrete input for the C7 witness: one noise point and one clustered
point. -/
def c7input : List ClusteredData :=
  [{ url := "https://a.example", title := "t", content := "c", description := "da",
     embedding := [0], cluster := -1 },
   { url := "https://b.example", title := "t", content := "c", description := "db",
     embedding := [1], cluster := 0 }]

/-- The noise summary produced on `c7input` (backend calls all failing). -/
def c7noise : ClusterAnalysisEntry :=
  { name := "Noise", description := "Points that do not belong to any cluster",
    urls := ["https://a.example"], count := 1 }

/-- The cluster-0 summary produced on `c7input` (backend calls all failing). -/
def c7entry0 : ClusterAnalysisEntry :=
  { name := "Cluster 0", description := "Error analyzing this cluster",
    urls := ["https://b.example"], count := 1 }

/-- C7 witness: the theorem applied to a concrete run containing a noise
group and a real cluster. -/
theorem C7_witness :
    (∃ e, ((-1 : Int), e) ∈ analyzeClusters (fun _ => none) (fun _ => none) (fun _ => none) c7input) ∧
    (c7noise.name = "Noise" ∧ c7noise.description = "Points that do not belong to any cluster") ∧
    c7entry0.count = c7entry0.urls.length := by
  refine ⟨?_, ?_, ?_⟩
  · exact ((C7_analyzeClusters_spec (fun _ => none) (fun _ => none) (fun _ => none) c7input).2.1
      (-1)).mp ⟨c7input.headI, by decide, by decide⟩
  · exact (C7_analyzeClusters_spec (fun _ => none) (fun _ => none) (fun _ => none) c7input).2.2.1
      c7noise (by decide)
  · exact (C7_analyzeClusters_spec (fun _ => none) (fun _ => none) (fun _ => none) c7input).2.2.2.1
      0 c7entry0 (by decide)

/-! ## C8: the empty-pipeline run -/

/-- C8: whenever zero items survive the deduplication / description /
embedding stages (in particular when the description backend fails for every
item, so every description stays empty and the embedding stage drops
everything), the orchestrator still returns a well-formed `.ok` result with
zero clusters and an empty analysis — no error is raised. -/
theorem C8_clusterUrls_empty_ok (cache : Cache) (gen : UrlData → Option String)
    (createOk : UrlHistoryEntry → Cache → Bool)
    (embedF : String → Option (List ℚ)) (chat : String → Option String)
    (nameMatch descMatch : String → Option String) (baseUrl : String) (pre : List PreUrl)
    (h : createEmbeddings
        (generateDescriptiveRepresentations cache gen createOk
          (deduplicateUrlData (pre.map (fun it => ⟨it.url, it.title, "", ""⟩)))).2 embedF
        (generateDescriptiveRepresentations cache gen createOk
          (deduplicateUrlData (pre.map (fun it => ⟨it.url, it.title, "", ""⟩)))).1 = []) :
    clusterUrls cache gen createOk embedF chat nameMatch descMatch baseUrl pre =
      .ok ⟨baseUrl, pre.length, 0, []⟩ := by
  unfold clusterUrls
  simp only [h]
  simp [createClusters, mainLoop, analyzeClusters, groupByCluster]

/-- Concrete input for the C8 witness. -/
def c8pre : List PreUrl :=
  [⟨"https://u1.example", "t1"⟩, ⟨"https://u2.example", "t2"⟩]

/-- C8 witness: with an empty cache and a description backend that always
fails, every description stays empty, the embedding stage drops everything,
and the run still returns the empty result. -/
theorem C8_witness :
    clusterUrls (fun _ => none) (fun _ => none) (fun _ _ => true) (fun _ => none)
      (fun _ => none) (fun _ => none) (fun _ => none) "https://base.example" c8pre =
      .ok ⟨"https://base.example", 2, 0, []⟩ :=
  C8_clusterUrls_empty_ok (fun _ => none) (fun _ => none) (fun _ _ => true) (fun _ => none)
    (fun _ => none) (fun _ => none) (fun _ => none) "https://base.example" c8pre (by decide)

/-! ## C9: the orchestrator keeps the noise group, the route drops it -/

/-- C9 (amended): the orchestrator-side analysis contains one summary for
every distinct cluster id of the run, including `-1` when noise points exist;
the route then filters the noise group out and the filtered list is what it
both returns and persists in the result cache (`routeClusters` models lines
87-100 of route.ts, covering the `db.clusters.create` payload), so every
persisted summary stems from a non-noise id and, when noise exists, the
persisted list is strictly shorter than the orchestrator's analysis. -/
theorem C9_noise_filtered_by_route (chat : String → Option String)
    (nameMatch descMatch : String → Option String) (clustered : List ClusteredData) :
    (∀ id : Int, (∃ x ∈ clustered, x.cluster = id) →
       ∃ e, (id, e) ∈ analyzeClusters chat nameMatch descMatch clustered) ∧
    (∀ c ∈ routeClusters (analyzeClusters chat nameMatch descMatch clustered),
       ∃ id e, (id, e) ∈ analyzeClusters chat nameMatch descMatch clustered ∧ id ≠ -1 ∧
         c = ⟨e.name, e.description, e.urls, e.count, e.name⟩) ∧
    ((∃ x ∈ clustered, x.cluster = -1) →
       (routeClusters (analyzeClusters chat nameMatch descMatch clustered)).length <
         (analyzeClusters chat nameMatch descMatch clustered).length) := by
  refine ⟨?_, ?_, ?_⟩
  · intro id h
    have hk : id ∈ (groupByCluster clustered).map Prod.fst :=
      (groupByCluster_key_mem clustered id).mpr h
    rw [← analyzeClusters_keys chat nameMatch descMatch] at hk
    exact (mem_keys_iff_exists _ id).mp hk
  · intro c hc
    unfold routeClusters at hc
    rcases List.mem_map.mp hc with ⟨kv, hkv, rfl⟩
    have hmem := List.mem_filter.mp hkv
    refine ⟨kv.1, kv.2, hmem.1, ?_, rfl⟩
    simpa using hmem.2
  · intro h
    have hk : (-1 : Int) ∈ (groupByCluster clustered).map Prod.fst :=
      (groupByCluster_key_mem clustered (-1)).mpr h
    rw [← analyzeClusters_keys chat nameMatch descMatch] at hk
    rcases (mem_keys_iff_exists _ (-1)).mp hk with ⟨e, he⟩
    unfold routeClusters
    rw [List.length_map]
    rw [List.length_filter_lt_length_iff_exists]
    exact ⟨((-1 : Int), e), he, by simp⟩

/-- Cache for the C9 counterexample: both urls have cached descriptions and
cached embeddings far apart. -/
def c9cache : Cache := fun k =>
  if k = "https://u1.example" then some ⟨"https://u1.example", "t1", "desc one", [0]⟩
  else if k = "https://u2.example" then some ⟨"https://u2.example", "t2", "desc two", [100]⟩
  else none

/-- Input for the C9 counterexample. -/
def c9pre : List PreUrl :=
  [⟨"https://u1.example", "t1"⟩, ⟨"https://u2.example", "t2"⟩]

/-- C9 counterexample: on a run whose two points are both noise, the
orchestrator's returned `clusterAnalysis` has exactly the key `-1` — but the
list the route returns AND persists via `db.clusters.create`
(`routeClusters`) is empty: the persisted cached result does NOT include the
noise group, contradicting the claim that the persisted result still
includes it. -/
theorem C9_counterexample :
    (clusterUrls c9cache (fun _ => none) (fun _ _ => true) (fun _ => none) (fun _ => none)
        (fun _ => none) (fun _ => none) "https://base.example" c9pre).toOption.map
      (fun r => (r.clusterAnalysis.map Prod.fst, routeClusters r.clusterAnalysis)) =
    some ([(-1 : Int)], []) := by
  with_unfolding_all decide

/-- C9 witness: the amended theorem applied at a concrete clustered list with
a noise point, discharging its hypotheses. -/
theorem C9_witness :
    ∃ e, ((-1 : Int), e) ∈ analyzeClusters (fun _ => none) (fun _ => none) (fun _ => none)
      [{ url := "https://w.example", title := "t", content := "c", description := "d",
         embedding := [0], cluster := -1 }] :=
  (C9_noise_filtered_by_route (fun _ => none) (fun _ => none) (fun _ => none)
    [{ url := "https://w.example", title := "t", content := "c", description := "d",
       embedding := [0], cluster := -1 }]).1 (-1)
    ⟨{ url := "https://w.example", title := "t", content := "c", description := "d",
       embedding := [0], cluster := -1 }, by decide, by decide⟩

/-! ## Lemmas about the DBSCAN clusterer: dimension handling (C2) -/

theorem euclideanDistanceSq_eq_ok (v w : List ℚ) (h : v.length = w.length) :
    euclideanDistanceSq v w =
      .ok ((List.zip v w).foldl (fun s p => s + (p.1 - p.2) ^ 2) 0) := by
  simp [euclideanDistanceSq, h]

theorem euclideanDistanceSq_eq_error (v w : List ℚ) (h : v.length ≠ w.length) :
    euclideanDistanceSq v w = .error "Vectors must have the same length" := by
  simp [euclideanDistanceSq, h]

theorem findNeighborsAux_error {emb : List (List ℚ)} {epsilon : ℚ} {p : Nat} {idxs : List Nat}
    (h : ∃ i ∈ idxs, i ≠ p ∧ (emb.getD i []).length ≠ (emb.getD p []).length) :
    ∃ e, findNeighborsAux emb epsilon p idxs = .error e := by
  induction idxs with
  | nil =>
    rcases h with ⟨i, hi, _⟩
    cases hi
  | cons i rest ih =>
    rcases h with ⟨j, hj, hjp, hjlen⟩
    simp only [findNeighborsAux]
    by_cases hip : i = p
    · rw [if_pos hip]
      apply ih
      rcases List.mem_cons.mp hj with rfl | hj2
      · exact absurd hip hjp
      · exact ⟨j, hj2, hjp, hjlen⟩
    · rw [if_neg hip]
      by_cases hlen : (emb.getD p []).length = (emb.getD i []).length
      · rw [euclideanDistanceSq_eq_ok _ _ hlen]
        have hw : ∃ j ∈ rest, j ≠ p ∧ (emb.getD j []).length ≠ (emb.getD p []).length := by
          rcases List.mem_cons.mp hj with rfl | hj2
          · exact absurd hlen.symm hjlen
          · exact ⟨j, hj2, hjp, hjlen⟩
        rcases ih hw with ⟨e, he⟩
        rw [he]
        exact ⟨e, rfl⟩
      · rw [euclideanDistanceSq_eq_error _ _ hlen]
        exact ⟨_, rfl⟩

theorem findNeighborsAux_ok {emb : List (List ℚ)} {epsilon : ℚ} {p : Nat} {idxs : List Nat}
    (h : ∀ i ∈ idxs, i ≠ p → (emb.getD i []).length = (emb.getD p []).length) :
    ∃ ns, findNeighborsAux emb epsilon p idxs = .ok ns ∧ ns.Sublist idxs ∧ ∀ m ∈ ns, m ≠ p := by
  induction idxs with
  | nil => exact ⟨[], rfl, by simp, by simp⟩
  | cons i rest ih =>
    have hrest : ∀ j ∈ rest, j ≠ p → (emb.getD j []).length = (emb.getD p []).length :=
      fun j hj hjp => h j (List.mem_cons_of_mem _ hj) hjp
    rcases ih hrest with ⟨ns, hns, hsub, hnp⟩
    simp only [findNeighborsAux]
    by_cases hip : i = p
    · rw [if_pos hip]
      exact ⟨ns, hns, hsub.cons i, hnp⟩
    · rw [if_neg hip]
      have hlen : (emb.getD p []).length = (emb.getD i []).length :=
        (h i (List.mem_cons_self _ _) hip).symm
      rw [euclideanDistanceSq_eq_ok _ _ hlen, hns]
      simp only []
      by_cases hcond : 0 ≤ epsilon ∧
          (List.zip (emb.getD p []) (emb.getD i [])).foldl
            (fun s q => s + (q.1 - q.2) ^ 2) 0 ≤ epsilon ^ 2
      · rw [if_pos hcond]
        refine ⟨i :: ns, rfl, hsub.cons₂ i, ?_⟩
        intro m hm
        rcases List.mem_cons.mp hm with rfl | hm2
        · exact hip
        · exact hnp m hm2
      · rw [if_neg hcond]
        exact ⟨ns, rfl, hsub.cons i, hnp⟩

theorem getD_length_of_uniform {emb : List (List ℚ)} {D : Nat}
    (huniform : ∀ v ∈ emb, v.length = D) {i : Nat} (hi : i < emb.length) :
    (emb.getD i []).length = D := by
  rw [List.getD_eq_getElem?_getD, List.getElem?_eq_getElem hi]
  exact huniform _ (List.getElem_mem hi)

theorem findNeighbors_ok {emb : List (List ℚ)} {D : Nat} (epsilon : ℚ) {p : Nat}
    (huniform : ∀ v ∈ emb, v.length = D) (hp : p < emb.length) :
    ∃ ns, findNeighbors emb epsilon p = .ok ns ∧
      ns.Sublist (List.range emb.length) ∧ ∀ m ∈ ns, m ≠ p := by
  apply findNeighborsAux_ok
  intro i hi _
  rw [getD_length_of_uniform huniform (List.mem_range.mp hi),
    getD_length_of_uniform huniform hp]

theorem exists_mismatch_with_zero {emb : List (List ℚ)}
    (h : ∃ i, i < emb.length ∧ ∃ j, j < emb.length ∧
      (emb.getD i []).length ≠ (emb.getD j []).length) :
    ∃ k, k < emb.length ∧ k ≠ 0 ∧ (emb.getD k []).length ≠ (emb.getD 0 []).length := by
  rcases h with ⟨i, hi, j, hj, hne⟩
  by_cases hi0 : (emb.getD i []).length = (emb.getD 0 []).length
  · refine ⟨j, hj, ?_, ?_⟩
    · rintro rfl
      exact hne hi0
    · intro hj0
      exact hne (hi0.trans hj0.symm)
  · refine ⟨i, hi, ?_, hi0⟩
    rintro rfl
    exact hi0 rfl

theorem findNeighbors_error_zero {emb : List (List ℚ)} (epsilon : ℚ)
    (h : ∃ k, k < emb.length ∧ k ≠ 0 ∧ (emb.getD k []).length ≠ (emb.getD 0 []).length) :
    ∃ e, findNeighbors emb epsilon 0 = .error e := by
  rcases h with ⟨k, hk, hk0, hklen⟩
  exact findNeighborsAux_error ⟨k, List.mem_range.mpr hk, hk0, hklen⟩

theorem getD_mem_of_lt {l : List Nat} {i : Nat} (h : i < l.length) : l.getD i 0 ∈ l := by
  rw [List.getD_eq_getElem?_getD, List.getElem?_eq_getElem h]
  exact List.getElem_mem h

theorem expandStep_ok {emb : List (List ℚ)} {epsilon : ℚ} {minPoints : Nat} {seed : Nat}
    {D : Nat} (huniform : ∀ v ∈ emb, v.length = D) {ws : List Nat} {s : DBState} {nb : Nat}
    (hnb : nb < emb.length) (hws : ∀ x ∈ ws, x < emb.length) :
    ∃ ws2 s2, expandStep emb epsilon minPoints seed ws s nb = .ok (ws2, s2) ∧
      ∀ x ∈ ws2, x < emb.length := by
  unfold expandStep
  by_cases hv : s.visited nb
  · rw [if_pos hv]
    exact ⟨ws, s, rfl, hws⟩
  · rw [if_neg hv]
    rcases findNeighbors_ok epsilon huniform hnb with ⟨ns, hns, hsub, _⟩
    rw [hns]
    simp only []
    refine ⟨_, _, rfl, ?_⟩
    intro x hx
    by_cases hmin : minPoints ≤ ns.length
    · rw [if_pos hmin] at hx
      rcases List.mem_append.mp hx with hx1 | hx2
      · exact hws x hx1
      · exact List.mem_range.mp (hsub.mem (List.mem_of_mem_filter hx2))
    · rw [if_neg hmin] at hx
      exact hws x hx

theorem expandLoop_ok {emb : List (List ℚ)} {epsilon : ℚ} {minPoints : Nat} {seed : Nat}
    {c : Int} {D : Nat} (huniform : ∀ v ∈ emb, v.length = D) :
    ∀ (fuel i : Nat) (ws : List Nat) (s : DBState), (∀ x ∈ ws, x < emb.length) →
      ∃ ws2 s2, expandLoop emb epsilon minPoints seed c fuel i ws s = .ok (ws2, s2) := by
  intro fuel
  induction fuel with
  | zero => exact fun i ws s _ => ⟨ws, s, rfl⟩
  | succ fuel ih =>
    intro i ws s hws
    simp only [expandLoop]
    by_cases hlt : i < ws.length
    · rw [if_pos hlt]
      have hnb : ws.getD i 0 < emb.length := hws _ (getD_mem_of_lt hlt)
      rcases expandStep_ok huniform hnb hws with ⟨ws2, s2, hstep, hws2⟩
      rw [hstep]
      exact ih (i + 1) ws2 _ hws2
    · rw [if_neg hlt]
      exact ⟨ws, s, rfl⟩

theorem mainLoop_ok {emb : List (List ℚ)} {epsilon : ℚ} {minPoints : Nat} {D : Nat}
    (huniform : ∀ v ∈ emb, v.length = D) :
    ∀ (idxs : List Nat) (s : DBState), (∀ j ∈ idxs, j < emb.length) →
      ∃ s2, mainLoop emb epsilon minPoints idxs s = .ok s2 := by
  intro idxs
  induction idxs with
  | nil => exact fun s _ => ⟨s, rfl⟩
  | cons i rest ih =>
    intro s hb
    have hi : i < emb.length := hb i (List.mem_cons_self _ _)
    have hrest : ∀ j ∈ rest, j < emb.length := fun j hj => hb j (List.mem_cons_of_mem _ hj)
    simp only [mainLoop]
    by_cases hv : s.visited i
    · rw [if_pos hv]
      exact ih s hrest
    · rw [if_neg hv]
      rcases findNeighbors_ok epsilon huniform hi with ⟨nbs, hnbs, hsub, _⟩
      rw [hnbs]
      simp only []
      by_cases hmin : nbs.length < minPoints
      · rw [if_pos hmin]
        exact ih _ hrest
      · rw [if_neg hmin]
        have hwsb : ∀ x ∈ nbs, x < emb.length :=
          fun x hx => List.mem_range.mp (hsub.mem hx)
        rcases expandLoop_ok huniform emb.length 0 nbs
            (setCluster (setVisited s i) i (s.currentCluster : Int)) hwsb with ⟨ws2, s2, hexp⟩
        unfold expandCluster
        rw [hexp]
        exact ih _ hrest

theorem emb_map_getD {arr : List EmbeddingData} {i : Nat} (h : i < arr.length) :
    (arr.map (fun d => d.embedding)).getD i [] = (arr.getD i default).embedding := by
  rw [List.getD_eq_getElem?_getD, List.getD_eq_getElem?_getD, List.getElem?_map,
    List.getElem?_eq_getElem h]
  rfl

/-- C2: `createClusters` fails with the dimension-mismatch error as soon as
any two items carry embedding vectors of different lengths (the error
surfaces to the caller, aborting the run before any cluster is produced),
and under the precondition that every embedding has the same dimensionality
`D` it never errors. -/
theorem C2_createClusters_dimension (arr : List EmbeddingData) (epsilon : ℚ) (minPoints : Nat) :
    ((∃ a ∈ arr, ∃ b ∈ arr, a.embedding.length ≠ b.embedding.length) →
       ∃ e, createClusters arr epsilon minPoints = .error e) ∧
    (∀ D : Nat, (∀ a ∈ arr, a.embedding.length = D) →
       ∃ out, createClusters arr epsilon minPoints = .ok out) := by
  constructor
  · rintro ⟨a, ha, b, hb, hne⟩
    rcases List.getElem_of_mem ha with ⟨i, hi, hia⟩
    rcases List.getElem_of_mem hb with ⟨j, hj, hjb⟩
    have hlen : (arr.map (fun d => d.embedding)).length = arr.length := List.length_map _ _
    have hmm : ∃ k, k < (arr.map (fun d => d.embedding)).length ∧ k ≠ 0 ∧
        ((arr.map (fun d => d.embedding)).getD k []).length ≠
        ((arr.map (fun d => d.embedding)).getD 0 []).length := by
      apply exists_mismatch_with_zero
      refine ⟨i, by omega, j, by omega, ?_⟩
      rw [emb_map_getD hi, emb_map_getD hj, List.getD_eq_getElem?_getD,
        List.getElem?_eq_getElem hi, List.getD_eq_getElem?_getD, List.getElem?_eq_getElem hj]
      simpa [hia, hjb] using hne
    rcases findNeighbors_error_zero epsilon hmm with ⟨e, he⟩
    have hpos : 0 < arr.length := by omega
    rcases Nat.exists_eq_succ_of_ne_zero (Nat.pos_iff_ne_zero.mp hpos) with ⟨m, hm⟩
    refine ⟨e, ?_⟩
    unfold createClusters
    rw [hm, List.range_succ_eq_map]
    simp only [mainLoop]
    rw [if_neg (by exact Bool.not_eq_true _ ▸ rfl)]
    rw [he]
  · intro D hD
    have huniform : ∀ v ∈ arr.map (fun d => d.embedding), v.length = D := by
      intro v hv
      rcases List.mem_map.mp hv with ⟨a, ha, rfl⟩
      exact hD a ha
    rcases @mainLoop_ok (arr.map (fun d => d.embedding)) epsilon minPoints D huniform
        (List.range arr.length) ⟨fun _ => false, fun _ => -1, 0⟩
        (fun j hj => by simpa using List.mem_range.mp hj) with ⟨s2, hs2⟩
    refine ⟨arr.enum.map (fun p => { toEmbeddingData := p.2, cluster := s2.cluster p.1 }), ?_⟩
    unfold createClusters
    rw [hs2]

/-- Mismatched-dimension input for the C2 witness. -/
def c2bad : List EmbeddingData :=
  [{ url := "https://x.example", title := "t", content := "c", description := "d",
     embedding := [0, 0] },
   { url := "https://y.example", title := "t", content := "c", description := "d",
     embedding := [1] }]

/-- Uniform-dimension input for the C2 witness. -/
def c2good : List EmbeddingData :=
  [{ url := "https://z.example", title := "t", content := "c", description := "d",
     embedding := [0] }]

/-- C2 witness: the theorem applied to a concrete mismatched input (error)
and a concrete uniform input (no error). -/
theorem C2_witness :
    (∃ e, createClusters c2bad (3 / 4) 2 = .error e) ∧
    (∃ out, createClusters c2good (3 / 4) 2 = .ok out) :=
  ⟨(C2_createClusters_dimension c2bad (3 / 4) 2).1
      ⟨c2bad.headI, by decide, c2bad.getLast (by decide), by decide, by decide⟩,
   (C2_createClusters_dimension c2good (3 / 4) 2).2 1 (by decide)⟩

/-! ## Lemmas about the DBSCAN clusterer: cluster-id structure (C1, C3) -/

/-- A core point: at least `minPoints` neighbors within `epsilon`. -/
def coreAt (emb : List (List ℚ)) (epsilon : ℚ) (minPoints : Nat) (p : Nat) : Prop :=
  ∃ ns, findNeighbors emb epsilon p = .ok ns ∧ minPoints ≤ ns.length

/-- Invariant: every point assigned to a cluster has been visited. -/
def ClusterVisited (s : DBState) : Prop :=
  ∀ p, s.cluster p ≠ -1 → s.visited p = true

/-- Invariant: cluster values lie in `{-1} ∪ [0, currentCluster)`. -/
def ClusterBounded (s : DBState) : Prop :=
  ∀ p, s.cluster p = -1 ∨ (0 ≤ s.cluster p ∧ s.cluster p < (s.currentCluster : Int))

/-- Invariant: `seeds` lists, in formation order, one seed point per formed
cluster: strictly increasing indices below `n`, the `k`-th seed assigned to
cluster `k` and a core point. -/
def SeedsOK (emb : List (List ℚ)) (epsilon : ℚ) (minPoints : Nat) (n : Nat)
    (s : DBState) (seeds : List Nat) : Prop :=
  seeds.length = s.currentCluster ∧
  List.Pairwise (fun a b => a < b) seeds ∧
  (∀ x ∈ seeds, x < n) ∧
  ∀ k, k < seeds.length →
    s.cluster (seeds.getD k 0) = (k : Int) ∧ coreAt emb epsilon minPoints (seeds.getD k 0)

theorem expandStep_spec {emb : List (List ℚ)} {epsilon : ℚ} {minPoints : Nat} {seed : Nat}
    {ws : List Nat} {s : DBState} {nb : Nat} {ws2 : List Nat} {s2 : DBState}
    (h : expandStep emb epsilon minPoints seed ws s nb = .ok (ws2, s2)) :
    (∀ p, s2.cluster p = s.cluster p) ∧ s2.currentCluster = s.currentCluster ∧
    (∀ p, s.visited p = true → s2.visited p = true) ∧ s2.visited nb = true := by
  unfold expandStep at h
  by_cases hv : s.visited nb
  · rw [if_pos hv] at h
    have h1 : ws = ws2 ∧ s = s2 := by
      have := congrArg (fun x : Except String (List Nat × DBState) =>
        match x with | .ok p => p | .error _ => (ws, s)) h
      exact ⟨congrArg Prod.fst this, congrArg Prod.snd this⟩
    rcases h1 with ⟨_, rfl⟩
    exact ⟨fun p => rfl, rfl, fun p hp => hp, hv⟩
  · rw [if_neg hv] at h
    cases hfn : findNeighbors emb epsilon nb with
    | error e =>
      rw [hfn] at h
      cases h
    | ok nn =>
      rw [hfn] at h
      simp only [] at h
      have h2 : s2 = setVisited s nb := by
        have := congrArg (fun x : Except String (List Nat × DBState) =>
          match x with | .ok p => p.2 | .error _ => s) h
        exact this.symm
      subst h2
      refine ⟨fun p => rfl, rfl, ?_, ?_⟩
      · intro p hp
        simp only [setVisited]
        split
        · rfl
        · exact hp
      · simp [setVisited]

theorem expandLoop_spec {emb : List (List ℚ)} {epsilon : ℚ} {minPoints : Nat} {seed : Nat}
    {c : Int} :
    ∀ (fuel i : Nat) (ws ws2 : List Nat) (s s2 : DBState),
      expandLoop emb epsilon minPoints seed c fuel i ws s = .ok (ws2, s2) →
      ClusterVisited s →
      ClusterVisited s2 ∧
      s2.currentCluster = s.currentCluster ∧
      (∀ p, s.visited p = true → s2.visited p = true) ∧
      (∀ p, s2.cluster p = s.cluster p ∨ (s.cluster p = -1 ∧ s2.cluster p = c)) := by
  intro fuel
  induction fuel with
  | zero =>
    intro i ws ws2 s s2 h hcv
    simp only [expandLoop] at h
    have h2 : s2 = s := by
      have := congrArg (fun x : Except String (List Nat × DBState) =>
        match x with | .ok p => p.2 | .error _ => s) h
      exact this.symm
    subst h2
    exact ⟨hcv, rfl, fun p hp => hp, fun p => Or.inl rfl⟩
  | succ fuel ih =>
    intro i ws ws2 s s2 h hcv
    simp only [expandLoop] at h
    by_cases hlt : i < ws.length
    · rw [if_pos hlt] at h
      cases hstep : expandStep emb epsilon minPoints seed ws s (ws.getD i 0) with
      | error e =>
        rw [hstep] at h
        cases h
      | ok pair =>
        obtain ⟨wsM, sM⟩ := pair
        rw [hstep] at h
        simp only [] at h
        rcases expandStep_spec hstep with ⟨hclusEq, hcurEq, hvisMono, hvisNb⟩
        have hcvM : ClusterVisited sM := by
          intro p hp
          rw [hclusEq p] at hp
          exact hvisMono p (hcv p hp)
        by_cases hassign : sM.cluster (ws.getD i 0) = -1
        · rw [if_pos hassign] at h
          have hcvM2 : ClusterVisited (setCluster sM (ws.getD i 0) c) := by
            intro p hp
            simp only [setCluster] at hp ⊢
            by_cases hpe : p = ws.getD i 0
            · subst hpe
              exact hvisNb
            · rw [if_neg hpe] at hp
              exact hcvM p hp
          rcases ih (i + 1) wsM ws2 (setCluster sM (ws.getD i 0) c) s2 h hcvM2 with
            ⟨hcv2, hcur2, hvis2, hclus2⟩
          refine ⟨hcv2, by rw [hcur2]; exact hcurEq, fun p hp => hvis2 p (hvisMono p hp), ?_⟩
          intro p
          rcases hclus2 p with h1 | ⟨h1, h2⟩
          · simp only [setCluster] at h1
            by_cases hpe : p = ws.getD i 0
            · subst hpe
              rw [if_pos rfl] at h1
              exact Or.inr ⟨(hclusEq _) ▸ hassign, h1⟩
            · rw [if_neg hpe] at h1
              rw [h1, hclusEq p]
              exact Or.inl rfl
          · simp only [setCluster] at h1
            by_cases hpe : p = ws.getD i 0
            · subst hpe
              exact Or.inr ⟨(hclusEq _) ▸ hassign, h2⟩
            · rw [if_neg hpe, hclusEq p] at h1
              exact Or.inr ⟨h1, h2⟩
        · rw [if_neg hassign] at h
          rcases ih (i + 1) wsM ws2 sM s2 h hcvM with ⟨hcv2, hcur2, hvis2, hclus2⟩
          refine ⟨hcv2, by rw [hcur2]; exact hcurEq, fun p hp => hvis2 p (hvisMono p hp), ?_⟩
          intro p
          rcases hclus2 p with h1 | ⟨h1, h2⟩
          · rw [h1, hclusEq p]
            exact Or.inl rfl
          · rw [hclusEq p] at h1
            exact Or.inr ⟨h1, h2⟩
    · rw [if_neg hlt] at h
      have h2 : s2 = s := by
        have := congrArg (fun x : Except String (List Nat × DBState) =>
          match x with | .ok p => p.2 | .error _ => s) h
        exact this.symm
      subst h2
      exact ⟨hcv, rfl, fun p hp => hp, fun p => Or.inl rfl⟩

theorem expandLoop_preserves_assigned {emb : List (List ℚ)} {epsilon : ℚ} {minPoints : Nat}
    {seed : Nat} {c : Int} {fuel i : Nat} {ws ws2 : List Nat} {s s2 : DBState}
    (h : expandLoop emb epsilon minPoints seed c fuel i ws s = .ok (ws2, s2))
    (hcv : ClusterVisited s) {p : Nat} (hp : s.cluster p ≠ -1) :
    s2.cluster p = s.cluster p := by
  rcases (expandLoop_spec fuel i ws ws2 s s2 h hcv).2.2.2 p with h1 | ⟨h1, _⟩
  · exact h1
  · exact absurd h1 hp

theorem setVisited_cluster (s : DBState) (i p : Nat) :
    (setVisited s i).cluster p = s.cluster p := rfl

theorem setCluster_cluster_ne (s : DBState) (i p : Nat) (c : Int) (h : p ≠ i) :
    (setCluster s i c).cluster p = s.cluster p := by
  simp [setCluster, h]

theorem noiseStep_clusterVisited {s : DBState} (i : Nat) (c : Int) (hcv : ClusterVisited s) :
    ClusterVisited (setCluster (setVisited s i) i c) := by
  intro p hp
  simp only [setCluster, setVisited] at hp ⊢
  by_cases hpe : p = i
  · rw [if_pos hpe]
  · rw [if_neg hpe] at hp ⊢
    exact hcv p hp

theorem mainLoop_preserves {emb : List (List ℚ)} {epsilon : ℚ} {minPoints : Nat} :
    ∀ (idxs : List Nat) (s s2 : DBState),
      mainLoop emb epsilon minPoints idxs s = .ok s2 →
      ClusterVisited s →
      ClusterVisited s2 ∧ (∀ p, s.cluster p ≠ -1 → s2.cluster p = s.cluster p) := by
  intro idxs
  induction idxs with
  | nil =>
    intro s s2 h hcv
    simp only [mainLoop] at h
    injection h with h
    subst h
    exact ⟨hcv, fun p _ => rfl⟩
  | cons i rest ih =>
    intro s s2 h hcv
    simp only [mainLoop] at h
    by_cases hv : s.visited i
    · rw [if_pos hv] at h
      exact ih s s2 h hcv
    · rw [if_neg hv] at h
      have hci : s.cluster i = -1 := by
        by_contra hne
        exact hv (hcv i hne)
      cases hfn : findNeighbors emb epsilon i with
      | error e =>
        rw [hfn] at h
        cases h
      | ok nbs =>
        rw [hfn] at h
        simp only [] at h
        by_cases hmin : nbs.length < minPoints
        · rw [if_pos hmin] at h
          rcases ih _ s2 h (noiseStep_clusterVisited i (-1) hcv) with ⟨hcv2, hpres⟩
          refine ⟨hcv2, ?_⟩
          intro p hp
          have hne : p ≠ i := fun he => hp (he ▸ hci)
          have hsn : (setCluster (setVisited s i) i (-1)).cluster p = s.cluster p :=
            setCluster_cluster_ne _ _ _ _ hne
          rw [hpres p (by rw [hsn]; exact hp), hsn]
        · rw [if_neg hmin] at h
          unfold expandCluster at h
          cases hexp : expandLoop emb epsilon minPoints i (s.currentCluster : Int) emb.length 0
              nbs (setCluster (setVisited s i) i (s.currentCluster : Int)) with
          | error e =>
            rw [hexp] at h
            cases h
          | ok pair =>
            obtain ⟨wsF, sE⟩ := pair
            rw [hexp] at h
            simp only [] at h
            rcases expandLoop_spec _ _ _ _ _ _ hexp
                (noiseStep_clusterVisited i (s.currentCluster : Int) hcv) with
              ⟨hcvE, hcurE, hvisE, hclusE⟩
            have hcvE2 : ClusterVisited { sE with currentCluster := sE.currentCluster + 1 } :=
              hcvE
            rcases ih _ s2 h hcvE2 with ⟨hcv2, hpres⟩
            refine ⟨hcv2, ?_⟩
            intro p hp
            have hne : p ≠ i := fun he => hp (he ▸ hci)
            have hseedp : (setCluster (setVisited s i) i (s.currentCluster : Int)).cluster p =
                s.cluster p := setCluster_cluster_ne _ _ _ _ hne
            have hEp : sE.cluster p = s.cluster p := by
              rcases hclusE p with h1 | ⟨h1, _⟩
              · rw [h1, hseedp]
              · rw [hseedp] at h1
                exact absurd h1 hp
            have hne2 : ({ sE with currentCluster := sE.currentCluster + 1 } : DBState).cluster p ≠
                -1 := by
              show sE.cluster p ≠ -1
              rw [hEp]
              exact hp
            rw [hpres p hne2]
            show sE.cluster p = s.cluster p
            exact hEp

theorem getD_append_left {l1 l2 : List Nat} {k : Nat} (h : k < l1.length) :
    (l1 ++ l2).getD k 0 = l1.getD k 0 := by
  rw [List.getD_eq_getElem?_getD, List.getD_eq_getElem?_getD, List.getElem?_append, if_pos h]

theorem getD_append_last {l : List Nat} {a : Nat} : (l ++ [a]).getD l.length 0 = a := by
  rw [List.getD_eq_getElem?_getD, List.getElem?_concat_length]
  rfl

theorem setCluster_cluster_self (s : DBState) (i : Nat) (c : Int) :
    (setCluster s i c).cluster i = c := by
  simp [setCluster]

theorem mainLoop_spec {emb : List (List ℚ)} {epsilon : ℚ} {minPoints : Nat} :
    ∀ (idxs : List Nat) (s s2 : DBState) (seeds : List Nat),
      mainLoop emb epsilon minPoints idxs s = .ok s2 →
      List.Pairwise (fun a b => a < b) idxs →
      (∀ j ∈ idxs, j < emb.length) →
      ClusterVisited s → ClusterBounded s →
      SeedsOK emb epsilon minPoints emb.length s seeds →
      (∀ x ∈ seeds, ∀ j ∈ idxs, x < j) →
      ∃ seeds2, ClusterVisited s2 ∧ ClusterBounded s2 ∧
        SeedsOK emb epsilon minPoints emb.length s2 seeds2 := by
  intro idxs
  induction idxs with
  | nil =>
    intro s s2 seeds h _ _ hcv hcb hseeds _
    simp only [mainLoop] at h
    injection h with h
    subst h
    exact ⟨seeds, hcv, hcb, hseeds⟩
  | cons i rest ih =>
    intro s s2 seeds h hpw hbound hcv hcb hseeds hsb
    rcases List.pairwise_cons.mp hpw with ⟨hilt, hpwr⟩
    have hi : i < emb.length := hbound i (List.mem_cons_self _ _)
    have hboundr : ∀ j ∈ rest, j < emb.length :=
      fun j hj => hbound j (List.mem_cons_of_mem _ hj)
    simp only [mainLoop] at h
    by_cases hv : s.visited i
    · rw [if_pos hv] at h
      exact ih s s2 seeds h hpwr hboundr hcv hcb hseeds
        (fun x hx j hj => hsb x hx j (List.mem_cons_of_mem _ hj))
    · rw [if_neg hv] at h
      have hci : s.cluster i = -1 := by
        by_contra hne
        exact hv (hcv i hne)
      have hseedne : ∀ x ∈ seeds, x ≠ i :=
        fun x hx he => absurd (he ▸ hsb x hx i (List.mem_cons_self _ _)) (lt_irrefl i)
      cases hfn : findNeighbors emb epsilon i with
      | error e =>
        rw [hfn] at h
        cases h
      | ok nbs =>
        rw [hfn] at h
        simp only [] at h
        by_cases hmin : nbs.length < minPoints
        · rw [if_pos hmin] at h
          have hcbN : ClusterBounded (setCluster (setVisited s i) i (-1)) := by
            intro p
            by_cases hpe : p = i
            · subst hpe
              exact Or.inl (setCluster_cluster_self _ _ _)
            · rw [setCluster_cluster_ne _ _ _ _ hpe]
              exact hcb p
          have hseedsN : SeedsOK emb epsilon minPoints emb.length
              (setCluster (setVisited s i) i (-1)) seeds := by
            rcases hseeds with ⟨hlen, hpws, hbnds, hvals⟩
            refine ⟨hlen, hpws, hbnds, ?_⟩
            intro k hk
            rcases hvals k hk with ⟨hclusk, hcorek⟩
            have hmem : seeds.getD k 0 ∈ seeds := getD_mem_of_lt hk
            rw [setCluster_cluster_ne _ _ _ _ (hseedne _ hmem)]
            exact ⟨hclusk, hcorek⟩
          exact ih _ s2 seeds h hpwr hboundr (noiseStep_clusterVisited i (-1) hcv) hcbN
            hseedsN (fun x hx j hj => hsb x hx j (List.mem_cons_of_mem _ hj))
        · rw [if_neg hmin] at h
          unfold expandCluster at h
          cases hexp : expandLoop emb epsilon minPoints i (s.currentCluster : Int) emb.length 0
              nbs (setCluster (setVisited s i) i (s.currentCluster : Int)) with
          | error e =>
            rw [hexp] at h
            cases h
          | ok pair =>
            obtain ⟨wsF, sE⟩ := pair
            rw [hexp] at h
            simp only [] at h
            have hcvSeed := noiseStep_clusterVisited i (s.currentCluster : Int) hcv
            rcases expandLoop_spec _ _ _ _ _ _ hexp hcvSeed with ⟨hcvE, hcurE, hvisE, hclusE⟩
            have hcurE2 : sE.currentCluster = s.currentCluster := hcurE
            have hsEi : sE.cluster i = (s.currentCluster : Int) := by
              rcases hclusE i with h1 | ⟨h1, _⟩
              · rw [h1, setCluster_cluster_self]
              · rw [setCluster_cluster_self] at h1
                omega
            have hcvBump : ClusterVisited
                { sE with currentCluster := sE.currentCluster + 1 } := hcvE
            have hcbBump : ClusterBounded
                { sE with currentCluster := sE.currentCluster + 1 } := by
              intro p
              show sE.cluster p = -1 ∨
                (0 ≤ sE.cluster p ∧ sE.cluster p < ((sE.currentCluster + 1 : Nat) : Int))
              rcases hclusE p with h1 | ⟨_, h2⟩
              · by_cases hpe : p = i
                · subst hpe
                  rw [hsEi, hcurE2]
                  refine Or.inr ⟨by omega, by omega⟩
                · rw [h1, setCluster_cluster_ne _ _ _ _ hpe, setVisited_cluster]
                  rcases hcb p with h3 | ⟨h3, h4⟩
                  · exact Or.inl h3
                  · refine Or.inr ⟨h3, ?_⟩
                    rw [hcurE2]
                    omega
              · rw [h2]
                refine Or.inr ⟨by omega, by omega⟩
            have hseedsBump : SeedsOK emb epsilon minPoints emb.length
                { sE with currentCluster := sE.currentCluster + 1 } (seeds ++ [i]) := by
              rcases hseeds with ⟨hlen, hpws, hbnds, hvals⟩
              refine ⟨?_, ?_, ?_, ?_⟩
              · rw [List.length_append, List.length_singleton]
                show seeds.length + 1 = sE.currentCluster + 1
                rw [hcurE2, hlen]
              · rw [List.pairwise_append]
                refine ⟨hpws, by simp, ?_⟩
                intro x hx y hy
                rcases List.mem_singleton.mp hy with rfl
                exact hsb x hx y (List.mem_cons_self _ _)
              · intro x hx
                rcases List.mem_append.mp hx with hx1 | hx2
                · exact hbnds x hx1
                · rcases List.mem_singleton.mp hx2 with rfl
                  exact hi
              · intro k hk
                rw [List.length_append, List.length_singleton] at hk
                by_cases hklt : k < seeds.length
                · rw [getD_append_left hklt]
                  rcases hvals k hklt with ⟨hclusk, hcorek⟩
                  have hmem : seeds.getD k 0 ∈ seeds := getD_mem_of_lt hklt
                  have hseedp : (setCluster (setVisited s i) i
                      (s.currentCluster : Int)).cluster (seeds.getD k 0) =
                      s.cluster (seeds.getD k 0) :=
                    setCluster_cluster_ne _ _ _ _ (hseedne _ hmem)
                  have hnz : (setCluster (setVisited s i) i
                      (s.currentCluster : Int)).cluster (seeds.getD k 0) ≠ -1 := by
                    rw [hseedp, hclusk]
                    omega
                  have := expandLoop_preserves_assigned hexp hcvSeed hnz
                  refine ⟨?_, hcorek⟩
                  show sE.cluster (seeds.getD k 0) = (k : Int)
                  rw [this, hseedp, hclusk]
                · have hke : k = seeds.length := by omega
                  subst hke
                  rw [getD_append_last]
                  constructor
                  · show sE.cluster i = (seeds.length : Int)
                    rw [hsEi, hlen]
                  · exact ⟨nbs, hfn, le_of_not_lt hmin⟩
            exact ih _ s2 (seeds ++ [i]) h hpwr hboundr hcvBump hcbBump hseedsBump
              (by
                intro x hx j hj
                rcases List.mem_append.mp hx with hx1 | hx2
                · exact hsb x hx1 j (List.mem_cons_of_mem _ hj)
                · rcases List.mem_singleton.mp hx2 with rfl
                  exact hilt j hj)

/-! ## Fuel adequacy for the growing-worklist loop

The worklist of `expandCluster` only ever receives indices below
`emb.length`, never the seed, and never a duplicate, so it stays shorter than
`emb.length` and the loop runs at most `emb.length` iterations: the fuel
`emb.length` supplied by `expandCluster` is never exhausted.  The lemma below
makes this precise: under those invariants any fuel of at least
`emb.length - i` — in particular the supplied one — yields the same result,
so the fuel-0 branch of the model is unreachable on the states the algorithm
actually visits. -/

theorem findNeighborsAux_sublist {emb : List (List ℚ)} {epsilon : ℚ} {p : Nat}
    {idxs ns : List Nat} (h : findNeighborsAux emb epsilon p idxs = .ok ns) :
    ns.Sublist idxs ∧ ∀ m ∈ ns, m ≠ p := by
  induction idxs generalizing ns with
  | nil =>
    simp only [findNeighborsAux] at h
    injection h with h
    subst h
    exact ⟨List.nil_sublist _, by simp⟩
  | cons i rest ih =>
    simp only [findNeighborsAux] at h
    by_cases hip : i = p
    · rw [if_pos hip] at h
      rcases ih h with ⟨h1, h2⟩
      exact ⟨h1.cons i, h2⟩
    · rw [if_neg hip] at h
      cases hd : euclideanDistanceSq (emb.getD p []) (emb.getD i []) with
      | error e =>
        rw [hd] at h
        cases h
      | ok d =>
        rw [hd] at h
        simp only [] at h
        cases hr : findNeighborsAux emb epsilon p rest with
        | error e =>
          rw [hr] at h
          cases h
        | ok ns0 =>
          rw [hr] at h
          simp only [] at h
          rcases ih hr with ⟨h1, h2⟩
          by_cases hcond : 0 ≤ epsilon ∧ d ≤ epsilon ^ 2
          · rw [if_pos hcond] at h
            injection h with h
            subst h
            refine ⟨h1.cons₂ i, ?_⟩
            intro m hm
            rcases List.mem_cons.mp hm with rfl | hm2
            · exact hip
            · exact h2 m hm2
          · rw [if_neg hcond] at h
            injection h with h
            subst h
            exact ⟨h1.cons i, h2⟩

theorem findNeighbors_sublist {emb : List (List ℚ)} {epsilon : ℚ} {p : Nat} {ns : List Nat}
    (h : findNeighbors emb epsilon p = .ok ns) :
    ns.Sublist (List.range emb.length) ∧ ∀ m ∈ ns, m ≠ p :=
  findNeighborsAux_sublist h

theorem expandStep_ws_spec {emb : List (List ℚ)} {epsilon : ℚ} {minPoints : Nat} {seed : Nat}
    {ws : List Nat} {s : DBState} {nb : Nat} {ws2 : List Nat} {s2 : DBState}
    (h : expandStep emb epsilon minPoints seed ws s nb = .ok (ws2, s2)) :
    ws2 = ws ∨ ∃ nn, findNeighbors emb epsilon nb = .ok nn ∧
      ws2 = ws ++ nn.filter (fun m => !ws.contains m && m != seed) := by
  unfold expandStep at h
  by_cases hv : s.visited nb
  · rw [if_pos hv] at h
    left
    have := congrArg (fun x : Except String (List Nat × DBState) =>
      match x with | .ok p => p.1 | .error _ => ws) h
    exact this.symm
  · rw [if_neg hv] at h
    cases hfn : findNeighbors emb epsilon nb with
    | error e =>
      rw [hfn] at h
      cases h
    | ok nn =>
      rw [hfn] at h
      simp only [] at h
      have hws2 : ws2 = if minPoints ≤ nn.length
          then ws ++ nn.filter (fun m => !ws.contains m && m != seed) else ws := by
        have := congrArg (fun x : Except String (List Nat × DBState) =>
          match x with | .ok p => p.1 | .error _ => ws) h
        exact this.symm
      by_cases hmin : minPoints ≤ nn.length
      · rw [if_pos hmin] at hws2
        exact Or.inr ⟨nn, rfl, hws2⟩
      · rw [if_neg hmin] at hws2
        exact Or.inl hws2

theorem nodup_lt_length_le {ws : List Nat} {n : Nat} (hnd : ws.Nodup)
    (hbs : ∀ x ∈ ws, x < n) : ws.length ≤ n := by
  have hsub : ws.toFinset ⊆ Finset.range n := by
    intro x hx
    exact Finset.mem_range.mpr (hbs x (List.mem_toFinset.mp hx))
  have := Finset.card_le_card hsub
  rwa [List.toFinset_card_of_nodup hnd, Finset.card_range] at this

theorem expandStep_ws_invariants {emb : List (List ℚ)} {epsilon : ℚ} {minPoints : Nat}
    {seed : Nat} {ws : List Nat} {s : DBState} {nb : Nat} {ws2 : List Nat} {s2 : DBState}
    (h : expandStep emb epsilon minPoints seed ws s nb = .ok (ws2, s2))
    (hnd : ws.Nodup) (hbs : ∀ x ∈ ws, x < emb.length ∧ x ≠ seed) :
    ws2.Nodup ∧ ∀ x ∈ ws2, x < emb.length ∧ x ≠ seed := by
  rcases expandStep_ws_spec h with rfl | ⟨nn, hfn, rfl⟩
  · exact ⟨hnd, hbs⟩
  · rcases findNeighbors_sublist hfn with ⟨hsub, _⟩
    have hnnnd : nn.Nodup := hsub.nodup (List.nodup_range _)
    constructor
    · rw [List.nodup_append]
      refine ⟨hnd, hnnnd.filter _, ?_⟩
      intro x hx hx2
      have := (List.mem_filter.mp hx2).2
      simp only [Bool.and_eq_true, Bool.not_eq_true', List.contains, List.elem_eq_mem,
        decide_eq_false_iff_not] at this
      exact this.1 hx
    · intro x hx
      rcases List.mem_append.mp hx with hx1 | hx2
      · exact hbs x hx1
      · have hmem := List.mem_of_mem_filter hx2
        have hcond := (List.mem_filter.mp hx2).2
        simp only [Bool.and_eq_true, Bool.not_eq_true', List.contains, List.elem_eq_mem,
          decide_eq_false_iff_not, bne_iff_ne] at hcond
        exact ⟨List.mem_range.mp (hsub.mem hmem), hcond.2⟩

theorem expandLoop_fuel_stable {emb : List (List ℚ)} {epsilon : ℚ} {minPoints : Nat}
    {seed : Nat} {c : Int} :
    ∀ (fuel i : Nat) (ws : List Nat) (s : DBState),
      ws.Nodup → (∀ x ∈ ws, x < emb.length ∧ x ≠ seed) →
      emb.length ≤ fuel + i →
      expandLoop emb epsilon minPoints seed c (fuel + 1) i ws s =
        expandLoop emb epsilon minPoints seed c fuel i ws s := by
  intro fuel
  induction fuel with
  | zero =>
    intro i ws s hnd hbs hfi
    have hle : ws.length ≤ i := by
      have := nodup_lt_length_le hnd (fun x hx => (hbs x hx).1)
      omega
    simp only [expandLoop]
    rw [if_neg (by omega)]
  | succ fuel ih =>
    intro i ws s hnd hbs hfi
    by_cases hlt : i < ws.length
    · simp only [expandLoop]
      rw [if_pos hlt, if_pos hlt]
      cases hstep : expandStep emb epsilon minPoints seed ws s (ws.getD i 0) with
      | error e => rfl
      | ok pair =>
        obtain ⟨wsM, sM⟩ := pair
        simp only []
        rcases expandStep_ws_invariants hstep hnd hbs with ⟨hnd2, hbs2⟩
        exact ih (i + 1) wsM _ hnd2 hbs2 (by omega)
    · simp only [expandLoop]
      rw [if_neg hlt, if_neg hlt]

/-- At the `expandCluster` call sites the worklist is a `findNeighbors`
result for the seed, so the invariants of `expandLoop_fuel_stable` hold and
the supplied fuel `emb.length` behaves like any larger fuel: the model's
fuel-0 branch is unreachable. -/
theorem expandCluster_fuel_adequate {emb : List (List ℚ)} {epsilon : ℚ} {minPoints : Nat}
    {seed : Nat} {nbs : List Nat} {c : Int} {s : DBState}
    (hfn : findNeighbors emb epsilon seed = .ok nbs) :
    expandLoop emb epsilon minPoints seed c (emb.length + 1) 0 nbs (setCluster s seed c) =
      expandCluster emb epsilon minPoints seed nbs c s := by
  rcases findNeighbors_sublist hfn with ⟨hsub, hne⟩
  exact expandLoop_fuel_stable emb.length 0 nbs _ (hsub.nodup (List.nodup_range _))
    (fun x hx => ⟨List.mem_range.mp (hsub.mem hx), hne x hx⟩) (by omega)

/-! ## Reached points of the run

The claim "`-1` is reserved for points never reached by any cluster
expansion" is about which points the expansions touch.  A point is reached by
an expansion exactly when it is the expansion's seed or appears on its
worklist; since `expandLoop` only ever APPENDS to the worklist, the final
worklist returned by `expandCluster` contains every index that was ever on
it, so "seed plus final worklist" is precisely the set of points the
expansion iterates over and may assign.  `mainLoopR` below is `mainLoop` with
this set collected alongside (identical control flow and state evolution —
`mainLoopR_state` proves the state component coincides), and
`mainLoopR_reached` proves every collected point ends with a cluster
assignment `≠ -1`: a final `-1` therefore belongs only to points never
reached by any expansion. -/

theorem expandLoop_ws_invariants {emb : List (List ℚ)} {epsilon : ℚ} {minPoints : Nat}
    {seed : Nat} {c : Int} :
    ∀ (fuel i : Nat) (ws ws2 : List Nat) (s s2 : DBState),
      expandLoop emb epsilon minPoints seed c fuel i ws s = .ok (ws2, s2) →
      ws.Nodup → (∀ x ∈ ws, x < emb.length ∧ x ≠ seed) →
      ws2.Nodup ∧ ∀ x ∈ ws2, x < emb.length ∧ x ≠ seed := by
  intro fuel
  induction fuel with
  | zero =>
    intro i ws ws2 s s2 h hnd hbs
    simp only [expandLoop] at h
    injection h with h
    have h1 : ws = ws2 := congrArg Prod.fst h
    subst h1
    exact ⟨hnd, hbs⟩
  | succ fuel ih =>
    intro i ws ws2 s s2 h hnd hbs
    simp only [expandLoop] at h
    by_cases hlt : i < ws.length
    · rw [if_pos hlt] at h
      cases hstep : expandStep emb epsilon minPoints seed ws s (ws.getD i 0) with
      | error e =>
        rw [hstep] at h
        cases h
      | ok pair =>
        obtain ⟨wsM, sM⟩ := pair
        rw [hstep] at h
        simp only [] at h
        rcases expandStep_ws_invariants hstep hnd hbs with ⟨hndM, hbsM⟩
        exact ih (i + 1) wsM ws2 _ s2 h hndM hbsM
    · rw [if_neg hlt] at h
      injection h with h
      have h1 : ws = ws2 := congrArg Prod.fst h
      subst h1
      exact ⟨hnd, hbs⟩

theorem mem_exists_getD {l : List Nat} {p : Nat} (h : p ∈ l) :
    ∃ j, j < l.length ∧ l.getD j 0 = p := by
  rcases List.mem_iff_getElem.mp h with ⟨j, hj, he⟩
  refine ⟨j, hj, ?_⟩
  rw [List.getD_eq_getElem?_getD, List.getElem?_eq_getElem hj]
  exact he

/-- Every worklist entry is assigned a cluster by the time the expansion loop
finishes: processed entries were assigned on their iteration (set to `c` if
still `-1`), unprocessed entries cannot remain because the worklist is
shorter than the available fuel (same invariants as
`expandLoop_fuel_stable`). -/
theorem expandLoop_worklist_assigned {emb : List (List ℚ)} {epsilon : ℚ} {minPoints : Nat}
    {seed : Nat} {c : Int} (hc : c ≠ -1) :
    ∀ (fuel i : Nat) (ws ws2 : List Nat) (s s2 : DBState),
      expandLoop emb epsilon minPoints seed c fuel i ws s = .ok (ws2, s2) →
      ws.Nodup → (∀ x ∈ ws, x < emb.length ∧ x ≠ seed) →
      emb.length ≤ fuel + i →
      (∀ j, j < i → j < ws.length → s.cluster (ws.getD j 0) ≠ -1) →
      ∀ j, j < ws2.length → s2.cluster (ws2.getD j 0) ≠ -1 := by
  intro fuel
  induction fuel with
  | zero =>
    intro i ws ws2 s s2 h hnd hbs hfi hpre
    simp only [expandLoop] at h
    injection h with h
    have h1 : ws = ws2 := congrArg Prod.fst h
    have h2 : s = s2 := congrArg Prod.snd h
    subst h1
    subst h2
    intro j hj
    have hwl : ws.length ≤ emb.length :=
      nodup_lt_length_le hnd (fun x hx => (hbs x hx).1)
    exact hpre j (by omega) hj
  | succ fuel ih =>
    intro i ws ws2 s s2 h hnd hbs hfi hpre
    simp only [expandLoop] at h
    by_cases hlt : i < ws.length
    · rw [if_pos hlt] at h
      cases hstep : expandStep emb epsilon minPoints seed ws s (ws.getD i 0) with
      | error e =>
        rw [hstep] at h
        cases h
      | ok pair =>
        obtain ⟨wsM, sM⟩ := pair
        rw [hstep] at h
        simp only [] at h
        rcases expandStep_ws_invariants hstep hnd hbs with ⟨hndM, hbsM⟩
        rcases expandStep_spec hstep with ⟨hclusEq, _, _, _⟩
        have hpref : ∀ j, j < ws.length → wsM.getD j 0 = ws.getD j 0 := by
          rcases expandStep_ws_spec hstep with rfl | ⟨nn, _, rfl⟩
          · intro j _
            rfl
          · intro j hj
            exact getD_append_left hj
        apply ih (i + 1) wsM ws2 _ s2 h hndM hbsM (by omega)
        intro j hj1 hj2
        by_cases hji : j = i
        · subst hji
          rw [hpref j hlt]
          by_cases hassign : sM.cluster (ws.getD j 0) = -1
          · rw [if_pos hassign, setCluster_cluster_self]
            exact hc
          · rw [if_neg hassign]
            exact hassign
        · have hjlt : j < i := by omega
          have hjws : j < ws.length := by omega
          rw [hpref j hjws]
          have hM : sM.cluster (ws.getD j 0) ≠ -1 := by
            rw [hclusEq]
            exact hpre j hjlt hjws
          by_cases hassign : sM.cluster (ws.getD i 0) = -1
          · rw [if_pos hassign]
            by_cases hsame : ws.getD j 0 = ws.getD i 0
            · rw [hsame] at hM
              exact absurd hassign hM
            · rw [setCluster_cluster_ne _ _ _ _ hsame]
              exact hM
          · rw [if_neg hassign]
            exact hM
    · rw [if_neg hlt] at h
      injection h with h
      have h1 : ws = ws2 := congrArg Prod.fst h
      have h2 : s = s2 := congrArg Prod.snd h
      subst h1
      subst h2
      intro j hj
      exact hpre j (by omega) hj

/-- `mainLoop` instrumented to also collect, for every cluster expansion it
performs, the expansion's seed and final worklist — the points reached by
that expansion.  Control flow and state evolution are identical to
`mainLoop` (see `mainLoopR_state`). -/
def mainLoopR (emb : List (List ℚ)) (epsilon : ℚ) (minPoints : Nat) :
    List Nat → DBState → List Nat → Except String (DBState × List Nat)
  | [], s, reached => .ok (s, reached)
  | i :: rest, s, reached =>
    if s.visited i then mainLoopR emb epsilon minPoints rest s reached
    else
      match findNeighbors emb epsilon i with
      | .error e => .error e
      | .ok nbs =>
        if nbs.length < minPoints then
          mainLoopR emb epsilon minPoints rest (setCluster (setVisited s i) i (-1)) reached
        else
          match expandCluster emb epsilon minPoints i nbs (s.currentCluster : Int)
              (setVisited s i) with
          | .error e => .error e
          | .ok (wsF, s2) =>
            mainLoopR emb epsilon minPoints rest
              { s2 with currentCluster := s2.currentCluster + 1 } (reached ++ i :: wsF)

theorem mainLoopR_state {emb : List (List ℚ)} {epsilon : ℚ} {minPoints : Nat} :
    ∀ (idxs : List Nat) (s : DBState) (r : List Nat) (s2 : DBState),
      mainLoop emb epsilon minPoints idxs s = .ok s2 →
      ∃ r2, mainLoopR emb epsilon minPoints idxs s r = .ok (s2, r2) := by
  intro idxs
  induction idxs with
  | nil =>
    intro s r s2 h
    simp only [mainLoop] at h
    injection h with h
    subst h
    exact ⟨r, rfl⟩
  | cons i rest ih =>
    intro s r s2 h
    simp only [mainLoop] at h
    simp only [mainLoopR]
    by_cases hv : s.visited i
    · rw [if_pos hv] at h ⊢
      exact ih s r s2 h
    · rw [if_neg hv] at h ⊢
      cases hfn : findNeighbors emb epsilon i with
      | error e =>
        rw [hfn] at h
        simp only [] at h
        cases h
      | ok nbs =>
        rw [hfn] at h
        simp only [] at h ⊢
        by_cases hmin : nbs.length < minPoints
        · rw [if_pos hmin] at h ⊢
          exact ih _ r s2 h
        · rw [if_neg hmin] at h ⊢
          cases hexp : expandCluster emb epsilon minPoints i nbs (s.currentCluster : Int)
              (setVisited s i) with
          | error e =>
            rw [hexp] at h
            simp only [] at h
            cases h
          | ok pair =>
            obtain ⟨wsF, sE⟩ := pair
            rw [hexp] at h
            simp only [] at h ⊢
            exact ih _ _ s2 h

theorem mainLoopR_reached {emb : List (List ℚ)} {epsilon : ℚ} {minPoints : Nat} :
    ∀ (idxs : List Nat) (s : DBState) (r : List Nat) (s2 : DBState) (r2 : List Nat),
      mainLoopR emb epsilon minPoints idxs s r = .ok (s2, r2) →
      (∀ j ∈ idxs, j < emb.length) →
      ClusterVisited s →
      (∀ p ∈ r, s.cluster p ≠ -1 ∧ p < emb.length) →
      ClusterVisited s2 ∧ ∀ p ∈ r2, s2.cluster p ≠ -1 ∧ p < emb.length := by
  intro idxs
  induction idxs with
  | nil =>
    intro s r s2 r2 h _ hcv hr
    simp only [mainLoopR] at h
    injection h with h
    have h1 : s = s2 := congrArg Prod.fst h
    have h2 : r = r2 := congrArg Prod.snd h
    subst h1
    subst h2
    exact ⟨hcv, hr⟩
  | cons i rest ih =>
    intro s r s2 r2 h hb hcv hr
    have hi : i < emb.length := hb i (List.mem_cons_self _ _)
    have hbr : ∀ j ∈ rest, j < emb.length := fun j hj => hb j (List.mem_cons_of_mem _ hj)
    simp only [mainLoopR] at h
    by_cases hv : s.visited i
    · rw [if_pos hv] at h
      exact ih s r s2 r2 h hbr hcv hr
    · rw [if_neg hv] at h
      have hci : s.cluster i = -1 := by
        by_contra hne
        exact hv (hcv i hne)
      cases hfn : findNeighbors emb epsilon i with
      | error e =>
        rw [hfn] at h
        cases h
      | ok nbs =>
        rw [hfn] at h
        simp only [] at h
        by_cases hmin : nbs.length < minPoints
        · rw [if_pos hmin] at h
          apply ih _ _ _ _ h hbr (noiseStep_clusterVisited i (-1) hcv)
          intro p hp
          rcases hr p hp with ⟨hpne, hplt⟩
          have hne : p ≠ i := fun he => hpne (he ▸ hci)
          refine ⟨?_, hplt⟩
          rw [setCluster_cluster_ne _ _ _ _ hne, setVisited_cluster]
          exact hpne
        · rw [if_neg hmin] at h
          unfold expandCluster at h
          cases hexp : expandLoop emb epsilon minPoints i (s.currentCluster : Int) emb.length 0
              nbs (setCluster (setVisited s i) i (s.currentCluster : Int)) with
          | error e =>
            rw [hexp] at h
            cases h
          | ok pair =>
            obtain ⟨wsF, sE⟩ := pair
            rw [hexp] at h
            simp only [] at h
            have hcvSeed := noiseStep_clusterVisited i (s.currentCluster : Int) hcv
            rcases expandLoop_spec _ _ _ _ _ _ hexp hcvSeed with ⟨hcvE, hcurE, _, hclusE⟩
            rcases findNeighbors_sublist hfn with ⟨hsub, hnei⟩
            have hnbnd : ∀ x ∈ nbs, x < emb.length ∧ x ≠ i :=
              fun x hx => ⟨List.mem_range.mp (hsub.mem hx), hnei x hx⟩
            have hnnd : nbs.Nodup := hsub.nodup (List.nodup_range _)
            have hcnz : (s.currentCluster : Int) ≠ -1 := by omega
            have hwsA : ∀ j, j < wsF.length → sE.cluster (wsF.getD j 0) ≠ -1 :=
              expandLoop_worklist_assigned hcnz emb.length 0 nbs wsF _ sE hexp hnnd hnbnd
                (by omega) (fun j hj _ => absurd hj (Nat.not_lt_zero j))
            have hwsB : ∀ x ∈ wsF, x < emb.length ∧ x ≠ i :=
              (expandLoop_ws_invariants emb.length 0 nbs wsF _ sE hexp hnnd hnbnd).2
            have hsEi : sE.cluster i = (s.currentCluster : Int) := by
              rcases hclusE i with h1 | ⟨h1, _⟩
              · rw [h1, setCluster_cluster_self]
              · rw [setCluster_cluster_self] at h1
                omega
            apply ih _ _ _ _ h hbr hcvE
            intro p hp
            rcases List.mem_append.mp hp with hp1 | hp2
            · rcases hr p hp1 with ⟨hpne, hplt⟩
              have hne : p ≠ i := fun he => hpne (he ▸ hci)
              have hseedp : (setCluster (setVisited s i) i
                  (s.currentCluster : Int)).cluster p = s.cluster p := by
                rw [setCluster_cluster_ne _ _ _ _ hne, setVisited_cluster]
              refine ⟨?_, hplt⟩
              show sE.cluster p ≠ -1
              rcases hclusE p with h1 | ⟨_, h2⟩
              · rw [h1, hseedp]
                exact hpne
              · rw [h2]
                omega
            · rcases List.mem_cons.mp hp2 with rfl | hp3
              · refine ⟨?_, hi⟩
                show sE.cluster p ≠ -1
                rw [hsEi]
                omega
              · rcases mem_exists_getD hp3 with ⟨j, hj, hje⟩
                refine ⟨?_, (hwsB p hp3).1⟩
                show sE.cluster p ≠ -1
                rw [← hje]
                exact hwsA j hj

theorem getD_mem_of_lt_inh {α : Type} [Inhabited α] {l : List α} {i : Nat}
    (h : i < l.length) : l.getD i default ∈ l := by
  rw [List.getD_eq_getElem?_getD, List.getElem?_eq_getElem h]
  exact List.getElem_mem h

theorem createClusters_run {arr : List EmbeddingData} {epsilon : ℚ} {minPoints : Nat}
    {out : List ClusteredData} (h : createClusters arr epsilon minPoints = .ok out) :
    ∃ s2, mainLoop (arr.map (fun d => d.embedding)) epsilon minPoints
        (List.range arr.length) ⟨fun _ => false, fun _ => -1, 0⟩ = .ok s2 ∧
      out = arr.enum.map (fun p => { toEmbeddingData := p.2, cluster := s2.cluster p.1 }) := by
  unfold createClusters at h
  cases hm : mainLoop (arr.map (fun d => d.embedding)) epsilon minPoints
      (List.range arr.length) ⟨fun _ => false, fun _ => -1, 0⟩ with
  | error e =>
    rw [hm] at h
    cases h
  | ok s2 =>
    rw [hm] at h
    injection h with h
    exact ⟨s2, rfl, h.symm⟩

theorem createClusters_out_length {arr : List EmbeddingData} {s2 : DBState}
    {out : List ClusteredData}
    (hout : out = arr.enum.map (fun p => { toEmbeddingData := p.2, cluster := s2.cluster p.1 })) :
    out.length = arr.length := by
  subst hout
  rw [List.length_map, List.enum_length]

theorem createClusters_out_getD {arr : List EmbeddingData} {s2 : DBState}
    {out : List ClusteredData}
    (hout : out = arr.enum.map (fun p => { toEmbeddingData := p.2, cluster := s2.cluster p.1 }))
    {k : Nat} (hk : k < arr.length) :
    (out.getD k default).cluster = s2.cluster k := by
  subst hout
  have hk2 : k < (arr.enum.map (fun p : Nat × EmbeddingData =>
      ({ toEmbeddingData := p.2, cluster := s2.cluster p.1 } : ClusteredData))).length := by
    rw [List.length_map, List.enum_length]
    exact hk
  rw [List.getD_eq_getElem?_getD, List.getElem?_eq_getElem hk2]
  simp only [Option.getD_some]
  rw [List.getElem_map]
  have henum : k < arr.enum.length := by
    rw [List.enum_length]
    exact hk
  rw [List.getElem_enum]

theorem createClusters_mem_out {arr : List EmbeddingData} {s2 : DBState}
    {out : List ClusteredData}
    (hout : out = arr.enum.map (fun p => { toEmbeddingData := p.2, cluster := s2.cluster p.1 }))
    {x : ClusteredData} (hx : x ∈ out) :
    ∃ k, k < arr.length ∧ x.cluster = s2.cluster k := by
  subst hout
  rcases List.mem_map.mp hx with ⟨p, hp, rfl⟩
  rcases List.mem_iff_getElem.mp hp with ⟨k, hk, hke⟩
  have hk2 : k < arr.length := by
    rw [List.enum_length] at hk
    exact hk
  refine ⟨k, hk2, ?_⟩
  rw [← hke, List.getElem_enum]

/-- C3: for every successful run of `createClusters`, the non-negative
cluster ids appearing in the output are exactly the dense range `0..K-1`; ids
are assigned in increasing order of first cluster formation, witnessed by the
strictly increasing list of seed indices, the `k`-th of which carries cluster
id `k`; and `-1` appears only on points never reached by any cluster
expansion: `mainLoopR` is the main loop instrumented to also collect, for
every expansion it performs, the seed together with the final worklist of
that expansion (every point the expansion reached), and the sixth conjunct
states that a point whose final cluster is `-1` occurs in no expansion's
collected reach; the last conjunct adds permanence: once a point is assigned
a cluster (its value is not `-1`) no later part of the run ever changes it. -/
theorem C3_createClusters_dense_ids (arr : List EmbeddingData) (epsilon : ℚ) (minPoints : Nat)
    (out : List ClusteredData) (h : createClusters arr epsilon minPoints = .ok out) :
    ∃ (K : Nat) (seeds : List Nat),
      (∀ id : Int, (∃ x ∈ out, x.cluster = id ∧ 0 ≤ id) ↔ (0 ≤ id ∧ id < (K : Int))) ∧
      (∀ x ∈ out, x.cluster = -1 ∨ (0 ≤ x.cluster ∧ x.cluster < (K : Int))) ∧
      seeds.length = K ∧ List.Pairwise (fun a b => a < b) seeds ∧
      (∀ k, k < K → seeds.getD k 0 < out.length ∧
        (out.getD (seeds.getD k 0) default).cluster = (k : Int)) ∧
      (∃ (sF : DBState) (reached : List Nat),
        mainLoopR (arr.map (fun d => d.embedding)) epsilon minPoints
          (List.range arr.length) ⟨fun _ => false, fun _ => -1, 0⟩ [] = .ok (sF, reached) ∧
        (∀ p, p < out.length → (out.getD p default).cluster = sF.cluster p) ∧
        (∀ p, p < out.length → (out.getD p default).cluster = -1 → p ∉ reached)) ∧
      (∀ (idxs : List Nat) (s s2 : DBState) (p : Nat),
        mainLoop (arr.map (fun d => d.embedding)) epsilon minPoints idxs s = .ok s2 →
        ClusterVisited s → s.cluster p ≠ -1 → s2.cluster p = s.cluster p) := by
  rcases createClusters_run h with ⟨s2, hrun, hout⟩
  have hlen_emb : (arr.map (fun d => d.embedding)).length = arr.length := List.length_map _ _
  have hinit_cv : ClusterVisited (⟨fun _ => false, fun _ => -1, 0⟩ : DBState) :=
    fun p hp => absurd rfl hp
  have hinit_cb : ClusterBounded (⟨fun _ => false, fun _ => -1, 0⟩ : DBState) :=
    fun p => Or.inl rfl
  have hinit_seeds : SeedsOK (arr.map (fun d => d.embedding)) epsilon minPoints
      (arr.map (fun d => d.embedding)).length (⟨fun _ => false, fun _ => -1, 0⟩ : DBState) [] :=
    ⟨rfl, List.Pairwise.nil, by simp, fun k hk => absurd hk (by simp)⟩
  rcases mainLoop_spec (List.range arr.length) _ s2 [] hrun
      (List.pairwise_lt_range arr.length)
      (fun j hj => by rw [hlen_emb]; exact List.mem_range.mp hj)
      hinit_cv hinit_cb hinit_seeds (by simp) with ⟨seeds, hcv2, hcb2, hseeds2⟩
  rcases hseeds2 with ⟨hslen, hspw, hsbnd, hsval⟩
  have houtlen : out.length = arr.length := createClusters_out_length hout
  refine ⟨s2.currentCluster, seeds, ?_, ?_, hslen, hspw, ?_, ?_, ?_⟩
  · intro id
    constructor
    · rintro ⟨x, hx, hxc, hid⟩
      rcases createClusters_mem_out hout hx with ⟨k, hk, hke⟩
      refine ⟨hid, ?_⟩
      rcases hcb2 k with h1 | ⟨_, h2⟩
      · rw [hxc, h1] at hke
        omega
      · rw [hxc] at hke
        rw [hke]
        exact h2
    · rintro ⟨hid, hlt⟩
      have hk : id.toNat < seeds.length := by omega
      rcases hsval id.toNat hk with ⟨hclus, _⟩
      have hp : seeds.getD id.toNat 0 < arr.length := by
        have := hsbnd _ (getD_mem_of_lt hk)
        rwa [hlen_emb] at this
      refine ⟨out.getD (seeds.getD id.toNat 0) default,
        getD_mem_of_lt_inh (by rw [houtlen]; exact hp), ?_, hid⟩
      rw [createClusters_out_getD hout hp, hclus]
      omega
  · intro x hx
    rcases createClusters_mem_out hout hx with ⟨k, _, hke⟩
    rcases hcb2 k with h1 | ⟨h2, h3⟩
    · exact Or.inl (hke.trans h1)
    · exact Or.inr ⟨hke ▸ h2, hke ▸ h3⟩
  · intro k hk
    have hk2 : k < seeds.length := by omega
    rcases hsval k hk2 with ⟨hclus, _⟩
    have hp : seeds.getD k 0 < arr.length := by
      have := hsbnd _ (getD_mem_of_lt hk2)
      rwa [hlen_emb] at this
    refine ⟨by rw [houtlen]; exact hp, ?_⟩
    rw [createClusters_out_getD hout hp, hclus]
  · rcases mainLoopR_state (List.range arr.length)
        (⟨fun _ => false, fun _ => -1, 0⟩ : DBState) [] s2 hrun with ⟨r2, hrunR⟩
    have hreach := mainLoopR_reached (List.range arr.length)
        (⟨fun _ => false, fun _ => -1, 0⟩ : DBState) [] s2 r2 hrunR
        (fun j hj => by rw [hlen_emb]; exact List.mem_range.mp hj)
        hinit_cv (fun p hp => absurd hp (List.not_mem_nil p))
    refine ⟨s2, r2, hrunR, ?_, ?_⟩
    · intro p hp
      rw [houtlen] at hp
      exact createClusters_out_getD hout hp
    · intro p hp hne hmem
      rw [houtlen] at hp
      rw [createClusters_out_getD hout hp] at hne
      exact (hreach.2 p hmem).1 hne
  · intro idxs s s2b p hm hcvs hne
    exact (mainLoop_preserves idxs s s2b hm hcvs).2 p hne

/-- C1 (amended): every non-negative cluster id of a successful
`createClusters` run labels a cluster that contains at least one core point —
its seed, a point with at least `minPoints` neighbors within `epsilon`.  (The
cluster may nonetheless hold fewer than `minPoints` members in total, because
the seed's neighbors may already belong to earlier clusters; see the
counterexample.) -/
theorem C1_cluster_has_core_seed (arr : List EmbeddingData) (epsilon : ℚ) (minPoints : Nat)
    (out : List ClusteredData) (h : createClusters arr epsilon minPoints = .ok out)
    (id : Int) (hid : 0 ≤ id) (hx : ∃ x ∈ out, x.cluster = id) :
    ∃ p, p < out.length ∧ (out.getD p default).cluster = id ∧
      coreAt (arr.map (fun d => d.embedding)) epsilon minPoints p := by
  rcases createClusters_run h with ⟨s2, hrun, hout⟩
  have hlen_emb : (arr.map (fun d => d.embedding)).length = arr.length := List.length_map _ _
  rcases mainLoop_spec (List.range arr.length) _ s2 [] hrun
      (List.pairwise_lt_range arr.length)
      (fun j hj => by rw [hlen_emb]; exact List.mem_range.mp hj)
      (fun p hp => absurd rfl hp) (fun p => Or.inl rfl)
      ⟨rfl, List.Pairwise.nil, by simp, fun k hk => absurd hk (by simp)⟩
      (by simp) with ⟨seeds, hcv2, hcb2, hseeds2⟩
  rcases hseeds2 with ⟨hslen, _, hsbnd, hsval⟩
  have houtlen : out.length = arr.length := createClusters_out_length hout
  rcases hx with ⟨x, hxmem, hxc⟩
  rcases createClusters_mem_out hout hxmem with ⟨k, _, hke⟩
  have hlt : id < (s2.currentCluster : Int) := by
    rcases hcb2 k with h1 | ⟨_, h2⟩
    · rw [hxc, h1] at hke
      omega
    · rw [hxc] at hke
      rw [hke]
      exact h2
  have hkk : id.toNat < seeds.length := by omega
  rcases hsval id.toNat hkk with ⟨hclus, hcore⟩
  have hp : seeds.getD id.toNat 0 < arr.length := by
    have := hsbnd _ (getD_mem_of_lt hkk)
    rwa [hlen_emb] at this
  refine ⟨seeds.getD id.toNat 0, by rw [houtlen]; exact hp, ?_, hcore⟩
  rw [createClusters_out_getD hout hp, hclus]
  omega

/-- The C1 counterexample geometry (minPoints 3, epsilon 5, squared distances
25 on every "edge"): a hub with three satellites forms cluster 0 absorbing
all satellites as border points; the opposite hub then seeds cluster 1 but
every one of its 3 neighbors is already taken, leaving cluster 1 a singleton. -/
def c1ex : List EmbeddingData :=
  [{ url := "https://hub0.example", title := "t", content := "c", description := "d",
     embedding := [0, 0, 0] },
   { url := "https://sat1.example", title := "t", content := "c", description := "d",
     embedding := [3, 4, 0] },
   { url := "https://sat2.example", title := "t", content := "c", description := "d",
     embedding := [3, -4, 0] },
   { url := "https://sat3.example", title := "t", content := "c", description := "d",
     embedding := [3, 0, 4] },
   { url := "https://hub1.example", title := "t", content := "c", description := "d",
     embedding := [6, 0, 0] }]

/-- C1 counterexample: with `minPoints = 3`, the run on `c1ex` produces
cluster assignments `[0, 0, 0, 0, 1]` — cluster id `1` is a real (non `-1`)
cluster with exactly one member, fewer than `minPoints`, and that sole member
was not border-absorbed into a qualifying core cluster (it carries its own
fresh id), refuting the claim as stated. -/
theorem C1_counterexample :
    (createClusters c1ex 5 3).toOption.map
      (fun out => (out.map (fun x => x.cluster),
        (out.filter (fun x => x.cluster = 1)).length)) =
    some ([0, 0, 0, 0, 1], 1) := by
  with_unfolding_all decide

/-- Input for the C1 witness: two coincident points, `minPoints = 1`. -/
def c1w : List EmbeddingData :=
  [{ url := "https://p.example", title := "t", content := "c", description := "d",
     embedding := [0] },
   { url := "https://q.example", title := "t", content := "c", description := "d",
     embedding := [0] }]

/-- Output of the C1 witness run. -/
def c1wOut : List ClusteredData :=
  [{ url := "https://p.example", title := "t", content := "c", description := "d",
     embedding := [0], cluster := 0 },
   { url := "https://q.example", title := "t", content := "c", description := "d",
     embedding := [0], cluster := 0 }]

/-- C1 witness: the amended theorem applied to a concrete run, with its
hypotheses discharged by evaluation. -/
theorem C1_witness :
    ∃ p, p < c1wOut.length ∧ (c1wOut.getD p default).cluster = 0 ∧
      coreAt (c1w.map (fun d => d.embedding)) 1 1 p :=
  C1_cluster_has_core_seed c1w 1 1 c1wOut (by with_unfolding_all rfl) 0 (by decide)
    ⟨c1wOut.headI, by decide, by decide⟩

/-- Input for the C3 witness: two coincident points, `minPoints = 1`. -/
def c3input : List EmbeddingData :=
  [{ url := "https://r.example", title := "t", content := "c", description := "d",
     embedding := [2] },
   { url := "https://s.example", title := "t", content := "c", description := "d",
     embedding := [2] }]

/-- Output of the C3 witness run. -/
def c3out : List ClusteredData :=
  [{ url := "https://r.example", title := "t", content := "c", description := "d",
     embedding := [2], cluster := 0 },
   { url := "https://s.example", title := "t", content := "c", description := "d",
     embedding := [2], cluster := 0 }]

/-- C3 witness: the theorem applied to a concrete run, its hypothesis
discharged by evaluation. -/
theorem C3_witness :
    ∃ (K : Nat) (seeds : List Nat),
      (∀ id : Int, (∃ x ∈ c3out, x.cluster = id ∧ 0 ≤ id) ↔ (0 ≤ id ∧ id < (K : Int))) ∧
      (∀ x ∈ c3out, x.cluster = -1 ∨ (0 ≤ x.cluster ∧ x.cluster < (K : Int))) ∧
      seeds.length = K ∧ List.Pairwise (fun a b => a < b) seeds ∧
      (∀ k, k < K → seeds.getD k 0 < c3out.length ∧
        (c3out.getD (seeds.getD k 0) default).cluster = (k : Int)) ∧
      (∃ (sF : DBState) (reached : List Nat),
        mainLoopR (c3input.map (fun d => d.embedding)) 1 1
          (List.range c3input.length) ⟨fun _ => false, fun _ => -1, 0⟩ [] = .ok (sF, reached) ∧
        (∀ p, p < c3out.length → (c3out.getD p default).cluster = sF.cluster p) ∧
        (∀ p, p < c3out.length → (c3out.getD p default).cluster = -1 → p ∉ reached)) ∧
      (∀ (idxs : List Nat) (s s2 : DBState) (p : Nat),
        mainLoop (c3input.map (fun d => d.embedding)) 1 1 idxs s = .ok s2 →
        ClusterVisited s → s.cluster p ≠ -1 → s2.cluster p = s.cluster p) :=
  C3_createClusters_dense_ids c3input 1 1 c3out (by with_unfolding_all rfl)


end AgenticBrowser
